import Mathlib

/-!
Verification of the shell interpretation engine of the Lindows repository:
command-line tokenization, alias expansion, path-namespace translation
(`utils/path_converter.py`), command dispatch, pipe/redirect routing
(`terminal_core.py`), the `cd` collaborator (`commands/file_commands.py`)
and the `history` collaborator (`commands/system_commands.py`).

Strings are modelled as `List Char` (`Str`), matching Python's view of a
string as a sequence of characters.  Python standard-library path functions
used by the source (`ntpath.normpath`, `ntpath.splitdrive`, `ntpath.isabs`,
`ntpath.join`, `posixpath.normpath`, `shlex.split`, `str.strip`,
`str.split`) are embedded faithfully below, restricted to the ASCII inputs
the claims range over (the `re` dollar anchor's trailing-newline rule is
modelled; Python's acceptance of non-ASCII digits in `int` is not).
-/

/-- Python strings are sequences of characters. -/
abbrev Str := List Char

/-- Conversion from a Lean string literal to the character-list model. -/
def s2l (s : String) : Str := s.toList

/-- The native (Windows) path separator character. -/
def bs : Char := '\\'

/-- Python `str.isspace` on the ASCII whitespace used by `str.strip` /
`str.split` with no arguments. -/
def isWS (c : Char) : Bool :=
  c = ' ' ∨ c = '\t' ∨ c = '\n' ∨ c = '\r' ∨ c = '\x0b' ∨ c = '\x0c'

/-- Python `str.lstrip()` (no argument: whitespace). -/
def pyLStrip (l : Str) : Str := l.dropWhile isWS

/-- Python `str.rstrip()` (no argument: whitespace). -/
def pyRStrip (l : Str) : Str := (l.reverse.dropWhile isWS).reverse

/-- Python `str.strip()` (no argument: whitespace). -/
def pyStrip (l : Str) : Str := pyLStrip (pyRStrip l)

/-- Membership of a character in a string (Python `c in s`). -/
def hasChar (l : Str) (c : Char) : Bool := l.any (fun x => x = c)

/-- Occurrence of a two-character substring (Python `ab in s` for a
two-character pattern such as `>>`). -/
def hasSub2 (a b : Char) : Str → Bool
  | [] => false
  | [_] => false
  | x :: y :: r => (x = a ∧ y = b) ∨ hasSub2 a b (y :: r)

/-- Python `str.split(sep)` for a single-character separator `sep`. -/
def splitOnChar (sep : Char) : Str → List Str
  | [] => [[]]
  | c :: cs =>
    match splitOnChar sep cs with
    | r :: rs => if c = sep then [] :: r :: rs else (c :: r) :: rs
    | [] => [[]]

/-- Python `str.split(sep)` for a two-character separator (used for `>>`):
non-overlapping matches scanned left to right. -/
def splitOn2 (a b : Char) : Str → List Str
  | x :: y :: rest =>
    if x = a ∧ y = b then [] :: splitOn2 a b rest
    else
      match splitOn2 a b (y :: rest) with
      | r :: rs => (x :: r) :: rs
      | [] => [[x]]
  | l => [l]

/-- Accumulator for Python whitespace `str.split()` (no arguments). -/
def wsGo (cur : Str) : Str → List Str
  | [] => if cur = [] then [] else [cur.reverse]
  | c :: cs =>
    if isWS c then (if cur = [] then wsGo [] cs else cur.reverse :: wsGo [] cs)
    else wsGo (c :: cur) cs

/-- Python `str.split()` with no arguments: split on runs of whitespace,
discarding empty fields. -/
def pySplitWs (l : Str) : List Str := wsGo [] l

/-- Python `str.split(None, 1)`: at most one split on whitespace.  The
remainder keeps its trailing characters but loses the leading whitespace. -/
def pySplitWs1 (l : Str) : List Str :=
  let l1 := l.dropWhile isWS
  if l1 = [] then []
  else
    let w := l1.takeWhile (fun c => ¬ isWS c)
    let r := (l1.drop w.length).dropWhile isWS
    if r = [] then [w] else [w, r]

/-- Lookup in an association list, modelling Python `dict` access (keys are
unique in a `dict`; the first binding wins here). -/
def lookupA {α : Type} (l : List (Str × α)) (k : Str) : Option α :=
  match l with
  | [] => none
  | (k', v) :: rest => if k' = k then some v else lookupA rest k

/-- Update-or-append in an association list, modelling `d[k] = v`. -/
def setA {α : Type} (l : List (Str × α)) (k : Str) (v : α) : List (Str × α) :=
  match l with
  | [] => [(k, v)]
  | (k', v') :: rest => if k' = k then (k', v) :: rest else (k', v') :: setA rest k v

/-- Removal from an association list, modelling `del d[k]`. -/
def removeA {α : Type} (l : List (Str × α)) (k : Str) : List (Str × α) :=
  l.filter (fun p => ¬ p.1 = k)

/-- Replace every `/` by `\` (Python `s.replace('/', '\\')`). -/
def mapSepB (l : Str) : Str := l.map (fun c => if c = '/' then bs else c)

/-- Replace every `\` by `/` (Python `s.replace('\\', '/')`). -/
def mapSepF (l : Str) : Str := l.map (fun c => if c = bs then '/' else c)

/-- Python `s.replace(t, r, 1)` for a single-character target `t`: replace
only the first occurrence. -/
def replaceFirst1 (target : Char) (repl : Str) : Str → Str
  | [] => []
  | c :: cs => if c = target then repl ++ cs else c :: replaceFirst1 target repl cs

/-- Lowercase an ASCII string (Python `str.lower`). -/
def lowerS (l : Str) : Str := l.map Char.toLower

/-- One ASCII letter, as matched by the `[a-zA-Z]` character class. -/
def isLetter (c : Char) : Bool := ('a' ≤ c ∧ c ≤ 'z') ∨ ('A' ≤ c ∧ c ≤ 'Z')

/-- Index of the first occurrence of `c` in `l` at position ≥ `start`
(Python `s.find(c, start)`), or `none`. -/
def findCharFrom (l : Str) (c : Char) (start : Nat) : Option Nat :=
  if h : start < l.length then
    if l.get ⟨start, h⟩ = c then some start else findCharFrom l c (start + 1)
  else none
termination_by l.length - start
decreasing_by omega

/-- The shared `.`/`..` collapsing loop of `ntpath.normpath` and
`posixpath.normpath`.  The accumulator holds the kept components in reverse
order; `root` tells whether the path is anchored (a `..` arriving at the
root is dropped).  This is the accumulator form of the in-place index loop
of the Python source: `acc = []` corresponds to `i == 0`, pushing to
`i += 1`, and popping to `del comps[i-1:i+1]`. -/
def npGo (root : Bool) : List Str → List Str → List Str
  | acc, [] => acc
  | acc, c :: cs =>
    if c = [] ∨ c = s2l "." then npGo root acc cs
    else if c = s2l ".." then
      match acc with
      | [] => if root then npGo root [] cs else npGo root [s2l ".."] cs
      | a :: as => if a = s2l ".." then npGo root (c :: a :: as) cs else npGo root as cs
    else npGo root (c :: acc) cs

/-- Python `ntpath.splitdrive`: split a Windows path into a drive (letter,
UNC share or device) part and the rest. -/
def splitdrive (p : Str) : Str × Str :=
  if p.length ≥ 2 then
    let normp := mapSepB p
    if normp.take 2 = [bs, bs] then
      let start := if (normp.take 8).map Char.toUpper = s2l "\\\\?\\UNC\\" then 8 else 2
      match findCharFrom normp bs start with
      | none => (p, [])
      | some index =>
        match findCharFrom normp bs (index + 1) with
        | none => (p, [])
        | some index2 => (p.take index2, p.drop index2)
    else if normp[1]? = some ':' then (p.take 2, p.drop 2) else ([], p)
  else ([], p)

/-- Python `ntpath.isabs`: the first three characters, with slashes turned
into backslashes, start with a separator or carry a rooted drive letter. -/
def isabs (s : Str) : Bool :=
  let s3 := mapSepB (s.take 3)
  s3.head? = some bs ∨ (s3.drop 1).take 2 = [':', bs]

/-- Python `ntpath.normpath`: collapse separators and `.`/`..` segments of
a Windows path. -/
def normpath (path : Str) : Str :=
  let path1 := mapSepB path
  let sd := splitdrive path1
  let pr := if sd.2.head? = some bs then sd.1 ++ [bs] else sd.1
  let body := if sd.2.head? = some bs then sd.2.dropWhile (fun c => c = bs) else sd.2
  let comps := (npGo (pr.getLast? = some bs) [] (splitOnChar bs body)).reverse
  let comps := if pr = [] ∧ comps = [] then [s2l "."] else comps
  pr ++ List.intercalate [bs] comps

/-- Whether a character is one of the two Windows separators. -/
def isSep (c : Char) : Bool := c = bs ∨ c = '/'

/-- The tail concatenation step of `ntpath.join`: add a separator when the
carried path is nonempty and does not already end in one. -/
def joinTail (rp pp : Str) : Str :=
  (if rp ≠ [] ∧ ¬ isSep (rp.getLastD ' ') then rp ++ [bs] else rp) ++ pp

/-- The final fix-up of `ntpath.join`: insert a separator between a UNC
drive and a non-absolute tail. -/
def joinFinish (rd rp : Str) : Str :=
  if rp ≠ [] ∧ ¬ isSep (rp.headD ' ') ∧ rd ≠ [] ∧ rd.getLast? ≠ some ':' then
    rd ++ [bs] ++ rp
  else rd ++ rp

/-- Python `ntpath.join` for exactly two arguments. -/
def joinP (path p : Str) : Str :=
  let rr := splitdrive path
  let pp := splitdrive p
  let step :=
    if pp.2 ≠ [] ∧ isSep (pp.2.headD ' ') then
      ((if pp.1 ≠ [] ∨ rr.1 = [] then pp.1 else rr.1), pp.2)
    else if pp.1 ≠ [] ∧ pp.1 ≠ rr.1 then
      if lowerS pp.1 ≠ lowerS rr.1 then (pp.1, pp.2)
      else (pp.1, joinTail rr.2 pp.2)
    else (rr.1, joinTail rr.2 pp.2)
  joinFinish step.1 step.2

/-- Modelled from the spec: `normalize` for virtual (Unix-style) paths,
"resolving `.`/`..` segments", i.e. `posixpath.normpath`; the spec names no
concrete function for normalizing the virtual form, so the Python stdlib
posix normalization is used as its natural reading. -/
def posixNormpath (path : Str) : Str :=
  if path = [] then s2l "."
  else
    let initial : Nat :=
      if path.head? = some '/' then
        (if (s2l "//").isPrefixOf path ∧ ¬ (s2l "///").isPrefixOf path then 2 else 1)
      else 0
    let comps := (npGo (initial ≠ 0) [] (splitOnChar '/' path)).reverse
    let p2 := List.replicate initial '/' ++ List.intercalate [('/' : Char)] comps
    if p2 = [] then s2l "." else p2

/-- Model of the Python `re` dollar anchor applied after `.*`: `.*$` matches
the whole remainder when it has no newline, and the remainder minus a single
trailing newline otherwise. -/
def dollarTrim (l : Str) : Option Str :=
  if ¬ hasChar l '\n' then some l
  else if l.getLast? = some '\n' ∧ ¬ hasChar l.dropLast '\n' then some l.dropLast
  else none

/-- Match of `^/([a-zA-Z])(/.*)?$` (the drive-letter virtual form), giving
the letter and the optional second group. -/
def matchDrive1 (l : Str) : Option (Char × Str) :=
  match l with
  | '/' :: d :: rest =>
    if isLetter d then
      if rest = [] ∨ rest = ['\n'] then some (d, [])
      else
        match rest with
        | '/' :: t => (dollarTrim t).map (fun t1 => (d, '/' :: t1))
        | _ => none
    else none
  | _ => none

/-- Match of `^/mnt/([a-zA-Z])(/.*)?$` (the `/mnt` virtual form): after the
literal `/mnt` the remainder must itself be of the drive-letter virtual
form, which `matchDrive1` matches. -/
def matchMnt (l : Str) : Option (Char × Str) :=
  match l with
  | '/' :: 'm' :: 'n' :: 't' :: rest => matchDrive1 rest
  | _ => none

/-- Match of `^([a-zA-Z]):\\(.*)$` (the native drive-letter form). -/
def matchDriveW (l : Str) : Option (Char × Str) :=
  match l with
  | d :: ':' :: '\\' :: rest =>
    if isLetter d then (dollarTrim rest).map (fun t1 => (d, t1)) else none
  | _ => none

namespace ColorOutput

/-- Source `ColorOutput.error`: red cross marker, message, colour reset. -/
def error (message : Str) : Str :=
  s2l "\x1b[31m✗ " ++ message ++ s2l "\x1b[0m"

end ColorOutput

namespace PathConverter

/-- Source `PathConverter.to_windows`.  `osCwd` stands for `os.getcwd()`
and `home` for `os.path.expanduser(~)`, the two ambient process values the
function reads. -/
def to_windows (osCwd home linux_path : Str) : Str :=
  if linux_path = [] then osCwd
  else
    let lp := if linux_path.head? = some '~' then replaceFirst1 '~' home linux_path
              else linux_path
    let lp := match matchDrive1 lp with
      | some (d, rest) => [Char.toUpper d, ':'] ++ rest
      | none => lp
    let lp := match matchMnt lp with
      | some (d, rest) => [Char.toUpper d, ':'] ++ rest
      | none => lp
    let wp := mapSepB lp
    let wp := if isabs wp then wp else joinP osCwd wp
    normpath wp

/-- Source `PathConverter.to_linux`; `osCwd` stands for `os.getcwd()`. -/
def to_linux (osCwd windows_path : Str) : Str :=
  if windows_path = [] then mapSepF osCwd
  else
    let wp := match matchDriveW windows_path with
      | some (d, rest) => '/' :: Char.toLower d :: '/' :: rest
      | none => windows_path
    mapSepF wp

end PathConverter

/-- The ambient operating-system state read and written by `cd`: the
process environment (`os.environ`), the home directory, the process working
directory (`os.getcwd()`), and the filesystem modelled as a finite map from
path to an is-directory flag (`os.path.exists` / `os.path.isdir`). -/
structure OS where
  env : List (Str × Str)
  home : Str
  cwdP : Str
  fs : List (Str × Bool)
deriving DecidableEq

/-- Model of `os.path.exists` over the finite filesystem map. -/
def osExists (os : OS) (p : Str) : Bool := (lookupA os.fs p).isSome

/-- Model of `os.path.isdir` over the finite filesystem map. -/
def osIsdir (os : OS) (p : Str) : Bool := (lookupA os.fs p).getD false

/-- The path `cd` resolves before its existence checks: home for no
argument, the `OLDPWD` slot for `-`, otherwise the Path-Translator result
joined against the session working directory when relative; normalized in
every case (source `FileCommands.cd`, resolution part). -/
def resolveCd (os : OS) (args : List Str) (cwd : Str) : Str :=
  let new_path :=
    match args with
    | [] => os.home
    | a :: _ =>
      if a = s2l "-" then (lookupA os.env (s2l "OLDPWD")).getD cwd
      else
        let np := PathConverter.to_windows os.cwdP os.home a
        if isabs np then np else joinP cwd np
  normpath new_path

namespace FileCommands

/-- Source `FileCommands.cd`: returns `(new_cwd, message)` and the updated
ambient state.  A raised exception is modelled as `Except.error`: the
not-a-directory branch formats `args[0]`, which raises an `IndexError`
(`list index out of range`) when `args` is empty. -/
def cd (os : OS) (args : List Str) (cwd : Str) : Except Str ((Str × Str) × OS) :=
  let new_path := resolveCd os args cwd
  if ¬ osExists os new_path then
    .ok ((cwd, ColorOutput.error
      (s2l "cd: " ++ args.headD (s2l "~") ++ s2l ": No such file or directory")), os)
  else if ¬ osIsdir os new_path then
    match args with
    | [] => .error (s2l "list index out of range")
    | a :: _ => .ok ((cwd, ColorOutput.error (s2l "cd: " ++ a ++ s2l ": Not a directory")), os)
  else
    .ok ((new_path, []), { os with env := setA os.env (s2l "OLDPWD") cwd })

end FileCommands

/-- Decimal digits of a natural number. -/
def natToDigits (n : Nat) : Str :=
  if n < 10 then [Char.ofNat (48 + n)]
  else natToDigits (n / 10) ++ [Char.ofNat (48 + n % 10)]
termination_by n
decreasing_by exact Nat.div_lt_self (by omega) (by omega)

/-- Python decimal rendering of an integer. -/
def intToStr (i : Int) : Str :=
  if i < 0 then '-' :: natToDigits i.natAbs else natToDigits i.toNat

/-- Python `int(s)` on ASCII input: optional surrounding whitespace, an
optional sign, then digits with single underscores allowed between digit
groups; `none` models the `ValueError`. -/
def pyInt (l : Str) : Option Int :=
  let s := pyStrip l
  let sgn : Int := if s.head? = some '-' then -1 else 1
  let ds := if s.head? = some '-' ∨ s.head? = some '+' then s.tail else s
  let groups := splitOnChar '_' ds
  if ds ≠ [] ∧ groups.all (fun g => g ≠ [] ∧ g.all Char.isDigit) then
    some (sgn * Int.ofNat
      ((ds.filter (fun c => ¬ c = '_')).foldl (fun acc c => 10 * acc + (c.toNat - 48)) 0))
  else none

/-- Python `enumerate(l, i)`. -/
def enumFrom (i : Int) : List Str → List (Int × Str)
  | [] => []
  | a :: as => (i, a) :: enumFrom (i + 1) as

/-- One history line, the f-string ` {i:4d}  {cmd}`. -/
def fmtHist (i : Int) (cmd : Str) : Str :=
  [' '] ++ (List.replicate (4 - (intToStr i).length) ' ' ++ intToStr i) ++ [' ', ' '] ++ cmd

namespace SystemCommands

/-- Source `SystemCommands.history`: a count (default 10, `int(args[0])`
when that parses), then the tail of the history from `max 0 (len - count)`,
each entry numbered from its 1-based position in the full history. -/
def history (args : List Str) (cwd : Str) (command_history : List Str) : Str :=
  let count : Int :=
    match args with
    | [] => 10
    | a :: _ => match pyInt a with | some n => n | none => 10
  let start : Int := max 0 ((command_history.length : Int) - count)
  let entries := enumFrom (start + 1) (command_history.drop start.toNat)
  List.intercalate [('\n' : Char)] (entries.map (fun p => fmtHist p.1 p.2))

end SystemCommands

/-- The whitespace set of `shlex` (space, tab, carriage return, newline). -/
def isShWS (c : Char) : Bool := c = ' ' ∨ c = '\t' ∨ c = '\r' ∨ c = '\n'

/-- The single-quote character. -/
def sqC : Char := Char.ofNat 39

/-- The double-quote character. -/
def dqC : Char := '"'

/-- States of the `shlex` scanner in POSIX whitespace-split mode: between
tokens, inside a word, inside a quote, or just after the escape character
(`back` remembers the quote being escaped from, if any). -/
inductive ShState
  | ws
  | word
  | inQuote (q : Char)
  | esc (back : Option Char)
deriving DecidableEq

/-- The `shlex.read_token` scanner (POSIX rules, whitespace split): `cur`
is the token under construction with its characters reversed (`none` when
no token has started — an empty quoted token still yields a field), `acc`
the finished tokens reversed.  `none` models the `ValueError` raised on an
unclosed quote or a trailing escape. -/
def shlexGo : ShState → Option Str → List Str → Str → Option (List Str)
  | .ws, _, acc, [] => some acc.reverse
  | .word, cur, acc, [] =>
    (match cur with
     | some t => some (t.reverse :: acc).reverse
     | none => some acc.reverse)
  | .inQuote _, _, _, [] => none
  | .esc _, _, _, [] => none
  | .ws, _, acc, c :: cs =>
    if isShWS c then shlexGo .ws none acc cs
    else if c = sqC ∨ c = dqC then shlexGo (.inQuote c) (some []) acc cs
    else if c = bs then shlexGo (.esc none) (some []) acc cs
    else shlexGo .word (some [c]) acc cs
  | .word, cur, acc, c :: cs =>
    let t := cur.getD []
    if isShWS c then shlexGo .ws none (t.reverse :: acc) cs
    else if c = sqC ∨ c = dqC then shlexGo (.inQuote c) (some t) acc cs
    else if c = bs then shlexGo (.esc none) (some t) acc cs
    else shlexGo .word (some (c :: t)) acc cs
  | .inQuote q, cur, acc, c :: cs =>
    let t := cur.getD []
    if c = q then shlexGo .word (some t) acc cs
    else if c = bs ∧ q = dqC then shlexGo (.esc (some q)) (some t) acc cs
    else shlexGo (.inQuote q) (some (c :: t)) acc cs
  | .esc back, cur, acc, c :: cs =>
    let t := cur.getD []
    match back with
    | some q =>
      if c ≠ bs ∧ c ≠ q then shlexGo (.inQuote q) (some (c :: bs :: t)) acc cs
      else shlexGo (.inQuote q) (some (c :: t)) acc cs
    | none => shlexGo .word (some (c :: t)) acc cs

/-- Python `shlex.split` (POSIX mode, whitespace split); `none` is the
`ValueError` caught by the caller. -/
def shlexSplit (l : Str) : Option (List Str) := shlexGo .ws none [] l

/-- The tokenizing tail of `LinuxTerminal.parse_command`: `shlex.split`
falling back to plain whitespace splitting on a `ValueError`, then head and
tail of the token list (empty tokens give an empty command). -/
def tokenize (cl : Str) : Str × List Str :=
  match (match shlexSplit cl with | some ts => ts | none => pySplitWs cl) with
  | [] => ([], [])
  | t :: ts => (t, ts)

/-- Source `LinuxTerminal.parse_command`: strip, expand an alias of the
first word once, tokenize with `shlex` falling back to plain whitespace
splitting on a `ValueError`, and return `(command, arguments)`. -/
def parse_command (aliases : List (Str × Str)) (command_line : Str) : Str × List Str :=
  if pyStrip command_line = [] then ([], [])
  else
    let parts := pySplitWs1 (pyStrip command_line)
    let cl :=
      match lookupA aliases (parts.headD []) with
      | some rep =>
        if parts.length > 1 then rep ++ [' '] ++ parts.getD 1 [] else rep
      | none => command_line
    tokenize cl

/-- The session state owned by `LinuxTerminal`: working directory, history,
alias table, running flag, plus the ambient process values the core reads
(`os.getcwd()`, the home directory) and the written files, modelled as a
finite map from native path to content. -/
structure TermState where
  cwd : Str
  history : List Str
  aliases : List (Str × Str)
  running : Bool
  files : List (Str × Str)
  osCwd : Str
  home : Str
deriving DecidableEq

/-- A registered command handler: the spec's collaborator contract
`(arguments, session state) -> text`, allowed to update the session state;
`Except.error` models an exception escaping the handler. -/
def Handler : Type := List Str → TermState → Except Str (Str × TermState)

/-- The command registry and the host-native fallback, the two external
collaborators `execute` dispatches to. -/
structure Config where
  commands : List (Str × Handler)
  external : Str → Str

/-- The plain-dispatch tail of `LinuxTerminal.execute`: parse the line, run
the registered handler catching any exception into a formatted error line,
or fall back to host execution (whose combined output is `rstrip`ped). -/
def dispatchResult (cfg : Config) (st : TermState) (command_line : Str) : Str × TermState :=
  let pr := parse_command st.aliases command_line
  match lookupA cfg.commands pr.1 with
  | some h =>
    match h pr.2 st with
    | .ok r => r
    | .error e => (ColorOutput.error (pr.1 ++ s2l ": " ++ e), st)
  | none => (pyRStrip (cfg.external command_line), st)

/-- Resolution of the redirection destination in
`LinuxTerminal._handle_redirect`: Path-Translator result, joined against
the session working directory when not absolute. -/
def resolveRedirect (st : TermState) (filepath : Str) : Str :=
  let full_path := PathConverter.to_windows st.osCwd st.home filepath
  if isabs full_path then full_path else joinP st.cwd full_path

/-- Source `LinuxTerminal._handle_redirect`: split on `>>` (preferred) or
`>`, demand exactly two parts, execute the left part, then write its output
plus a newline to the resolved destination (`>>` appends, `>` truncates).
The model's filesystem map always accepts the write. -/
def handle_redirect (exec1 : TermState → Str → Str × TermState)
    (st : TermState) (command_line : Str) : Str × TermState :=
  let append_mode := hasSub2 '>' '>' command_line
  let parts := if append_mode then splitOn2 '>' '>' command_line
               else splitOnChar '>' command_line
  if parts.length ≠ 2 then (ColorOutput.error (s2l "Invalid redirection syntax"), st)
  else
    let cmd := pyStrip (parts.headD [])
    let filepath := pyStrip (parts.getD 1 [])
    let r := exec1 st cmd
    let full_path := resolveRedirect r.2 filepath
    let content :=
      if append_mode then (lookupA r.2.files full_path).getD [] ++ r.1 ++ [('\n' : Char)]
      else r.1 ++ [('\n' : Char)]
    ([], { r.2 with files := setA r.2.files full_path content })

/-- The loop of `LinuxTerminal._handle_pipe`: run each stripped segment,
keeping only the latest output (when the previous output is non-empty the
source also parses the segment into an unused pair before executing it). -/
def pipeGo (exec1 : TermState → Str → Str × TermState) :
    Str → TermState → List Str → Str × TermState
  | output, st, [] => (output, st)
  | output, st, c :: cs =>
    let c1 := pyStrip c
    let r :=
      if output ≠ [] then
        let _ := parse_command st.aliases c1
        exec1 st c1
      else exec1 st c1
    pipeGo exec1 r.1 r.2 cs

/-- Source `LinuxTerminal._handle_pipe`: split the line on `|` and fold the
segments with `pipeGo`, starting from the empty output. -/
def handle_pipe (exec1 : TermState → Str → Str × TermState)
    (st : TermState) (command_line : Str) : Str × TermState :=
  pipeGo exec1 [] st (splitOnChar '|' command_line)

/-- Source `LinuxTerminal.execute`: strip; blank and `#` lines are no-ops;
append the line to history; route to the pipe handler when the line has a
`|`, else to the redirect handler when it has `>` (or `>>`), else dispatch.
The `Nat` argument is recursion fuel for the handlers' re-entrant calls
into `execute`; every claim instantiates it large enough. -/
def execute (cfg : Config) : Nat → TermState → Str → Str × TermState
  | 0, st, _ => ([], st)
  | fuel + 1, st, command_line =>
    let cl := pyStrip command_line
    if cl = [] ∨ cl.head? = some '#' then ([], st)
    else
      let st1 := { st with history := st.history ++ [cl] }
      if hasChar cl '|' then handle_pipe (execute cfg fuel) st1 cl
      else if hasChar cl '>' ∨ hasSub2 '>' '>' cl then
        handle_redirect (execute cfg fuel) st1 cl
      else dispatchResult cfg st1 cl

/-- The claim-side description of pipe handling: each stripped segment is
executed independently in order, intermediate outputs are discarded, and
the result is exactly that of the last segment. -/
def runSegs (exec1 : TermState → Str → Str × TermState) :
    TermState → List Str → Str × TermState
  | st, [] => ([], st)
  | st, [c] => exec1 st (pyStrip c)
  | st, c :: cs =>
    let r := exec1 st (pyStrip c)
    runSegs exec1 r.2 cs

/-! ### Helper lemmas about the Python string primitives -/

theorem length_pyRStrip_le (l : Str) : (pyRStrip l).length ≤ l.length := by
  simpa [pyRStrip] using (List.dropWhile_suffix isWS (l := l.reverse)).sublist.length_le

theorem pyRStrip_fix {l : Str} (h : pyStrip l = l) : pyRStrip l = l := by
  have h1 : (pyRStrip l).length ≤ l.length := length_pyRStrip_le l
  have h2 : l.length ≤ (pyRStrip l).length := by
    conv_lhs => rw [← h]
    exact (List.dropWhile_suffix isWS (l := pyRStrip l)).sublist.length_le
  have hrev : l.reverse.dropWhile isWS = l.reverse := by
    apply (List.dropWhile_suffix isWS).eq_of_length
    have : (pyRStrip l).length = l.length := le_antisymm h1 h2
    simpa [pyRStrip] using this
  simp [pyRStrip, hrev]

theorem pyLStrip_fix {l : Str} (h : pyStrip l = l) : pyLStrip l = l := by
  have := pyRStrip_fix h
  rwa [pyStrip, this] at h

theorem head_not_ws {c : Char} {cs : Str} (h : pyStrip (c :: cs) = c :: cs) :
    isWS c = false := by
  have h1 := pyLStrip_fix h
  by_contra hc
  have hc' : isWS c = true := by revert hc; cases isWS c <;> simp
  rw [pyLStrip, List.dropWhile_cons, if_pos hc'] at h1
  have := (List.dropWhile_suffix isWS (l := cs)).sublist.length_le
  have := congrArg List.length h1
  simp at this
  omega

theorem getLast_not_ws {l : Str} (h : pyStrip l = l) (hne : l ≠ []) :
    ∃ y ys, l.reverse = y :: ys ∧ isWS y = false := by
  have h1 := pyRStrip_fix h
  obtain ⟨y, ys, hy⟩ : ∃ y ys, l.reverse = y :: ys := by
    cases hl : l.reverse with
    | nil => exact absurd (by simpa using congrArg List.reverse hl) hne
    | cons y ys => exact ⟨y, ys, rfl⟩
  refine ⟨y, ys, hy, ?_⟩
  by_contra hc
  have hc' : isWS y = true := by revert hc; cases isWS y <;> simp
  rw [pyRStrip, hy, List.dropWhile_cons, if_pos hc'] at h1
  have h2 := congrArg List.length h1
  have := (List.dropWhile_suffix isWS (l := ys)).sublist.length_le
  have h3 : l.reverse.length = l.length := by simp
  rw [hy] at h3
  simp at h2 h3
  omega

theorem pyRStrip_append_ws {w : Char} (hw : isWS w = true) (l : Str) :
    pyRStrip (l ++ [w]) = pyRStrip l := by
  simp [pyRStrip, List.dropWhile_cons, hw]

theorem pyLStrip_cons_ws {w : Char} (hw : isWS w = true) (l : Str) :
    pyLStrip (w :: l) = pyLStrip l := by
  simp [pyLStrip, List.dropWhile_cons, hw]

theorem pyStrip_append_ws {l : Str} (h : pyStrip l = l) : pyStrip (l ++ [' ']) = l := by
  rw [pyStrip, pyRStrip_append_ws (by decide), ← pyStrip, h]

theorem pyRStrip_cons_of_fix {c : Char} {l : Str} (h : pyStrip l = l) (hne : l ≠ []) :
    pyRStrip (c :: l) = c :: l := by
  obtain ⟨y, ys, hy, hyw⟩ := getLast_not_ws h hne
  have hd : (c :: l).reverse.dropWhile isWS = (c :: l).reverse := by
    rw [List.reverse_cons, hy, List.dropWhile_append]
    simp [List.dropWhile_cons, hyw]
  rw [pyRStrip, hd, List.reverse_reverse]

theorem pyStrip_ws_cons {l : Str} (h : pyStrip l = l) (hne : l ≠ []) :
    pyStrip (' ' :: l) = l := by
  rw [pyStrip, pyRStrip_cons_of_fix h hne, pyLStrip_cons_ws (by decide)]
  exact pyLStrip_fix h

/-! ### Helper lemmas about splitting and substring search -/

theorem splitOnChar_ne_nil (sep : Char) : ∀ l : Str, splitOnChar sep l ≠ []
  | [] => by simp [splitOnChar]
  | c :: cs => by
    rw [splitOnChar]
    cases h : splitOnChar sep cs with
    | nil => exact absurd h (splitOnChar_ne_nil sep cs)
    | cons r rs =>
      by_cases hc : c = sep
      · simp [hc]
      · simp [hc]

theorem splitOnChar_no {sep : Char} {l : Str} (h : ∀ x ∈ l, x ≠ sep) :
    splitOnChar sep l = [l] := by
  induction l with
  | nil => rfl
  | cons c cs ih =>
    have h1 : ¬ (c = sep) := h c (List.mem_cons_self c cs)
    rw [splitOnChar, ih (fun x hx => h x (List.mem_cons_of_mem c hx))]
    simp [h1]

theorem splitOnChar_append_sep {sep : Char} {a : Str} (b : Str)
    (h : ∀ x ∈ a, x ≠ sep) :
    splitOnChar sep (a ++ sep :: b) = a :: splitOnChar sep b := by
  induction a with
  | nil =>
    rw [List.nil_append, splitOnChar]
    cases hb : splitOnChar sep b with
    | nil => exact absurd hb (splitOnChar_ne_nil sep b)
    | cons r rs => simp
  | cons c cs ih =>
    have h1 : ¬ (c = sep) := h c (List.mem_cons_self c cs)
    rw [List.cons_append, splitOnChar, ih (fun x hx => h x (List.mem_cons_of_mem c hx))]
    simp [h1]

theorem hasSub2_of_no_first {a b : Char} {l : Str} (h : ∀ x ∈ l, x ≠ a) :
    hasSub2 a b l = false := by
  induction l with
  | nil => rfl
  | cons c cs ih =>
    cases cs with
    | nil => rfl
    | cons y ys =>
      rw [hasSub2]
      have h1 := h c (List.mem_cons_self c (y :: ys))
      have h2 := ih (fun x hx => h x (List.mem_cons_of_mem c hx))
      simp [h1, h2]

theorem hasSub2_mid {c f : Str} (hc : ∀ x ∈ c, x ≠ '>') (hf : ∀ x ∈ f, x ≠ '>') :
    hasSub2 '>' '>' (c ++ s2l " > " ++ f) = false := by
  induction c with
  | nil =>
    show hasSub2 '>' '>' (' ' :: '>' :: ' ' :: f) = false
    have hsf : hasSub2 '>' '>' (' ' :: f) = false := by
      apply hasSub2_of_no_first
      intro x hx
      rcases List.mem_cons.mp hx with h | h
      · subst h; decide
      · exact hf x h
    rw [hasSub2]
    simp only [hasSub2] at hsf ⊢
    simp [hsf]
  | cons x xs ih =>
    have h1 : x ≠ '>' := hc x (List.mem_cons_self x xs)
    have hx : hasSub2 '>' '>' (xs ++ s2l " > " ++ f) = false :=
      ih (fun z hz => hc z (List.mem_cons_of_mem x hz))
    cases hxs : xs ++ s2l " > " ++ f with
    | nil => simp [s2l] at hxs
    | cons y ys =>
      have hcc : (x :: xs) ++ s2l " > " ++ f = x :: y :: ys := by
        simp only [List.cons_append, List.append_assoc] at hxs ⊢
        rw [hxs]
      rw [hcc, hasSub2]
      have hx' : hasSub2 '>' '>' (y :: ys) = false := hxs ▸ hx
      simp [hx', h1]

theorem hasSub2_append_occ (a : Str) (b : Str) :
    hasSub2 '>' '>' (a ++ '>' :: '>' :: b) = true := by
  induction a with
  | nil => simp [hasSub2]
  | cons x xs ih =>
    cases hxs : xs ++ '>' :: '>' :: b with
    | nil => simp at hxs
    | cons y ys =>
      have hcc : (x :: xs) ++ '>' :: '>' :: b = x :: y :: ys := by
        simp only [List.cons_append] at hxs ⊢
        rw [hxs]
      rw [hcc, hasSub2]
      have ih' : hasSub2 '>' '>' (y :: ys) = true := hxs ▸ ih
      simp [ih']

theorem splitOn2_no {l : Str} (h : hasSub2 '>' '>' l = false) :
    splitOn2 '>' '>' l = [l] := by
  induction l with
  | nil => rfl
  | cons x xs ih =>
    cases xs with
    | nil => rfl
    | cons y ys =>
      rw [hasSub2] at h
      have h1 : ¬ (x = '>' ∧ y = '>') := by
        intro hxy
        simp [hxy.1, hxy.2] at h
      have h2 : hasSub2 '>' '>' (y :: ys) = false := by
        revert h
        cases hasSub2 '>' '>' (y :: ys) <;> simp
      rw [splitOn2, if_neg h1, ih h2]

theorem splitOn2_append_sep {a : Str} (b : Str) (h : ∀ x ∈ a, x ≠ '>') :
    splitOn2 '>' '>' (a ++ '>' :: '>' :: b) = a :: splitOn2 '>' '>' b := by
  induction a with
  | nil => simp [splitOn2]
  | cons x xs ih =>
    have h1 : x ≠ '>' := h x (List.mem_cons_self x xs)
    have hx := ih (fun z hz => h z (List.mem_cons_of_mem x hz))
    cases hxs : xs ++ '>' :: '>' :: b with
    | nil => simp at hxs
    | cons y ys =>
      have hcc : (x :: xs) ++ '>' :: '>' :: b = x :: y :: ys := by
        simp only [List.cons_append] at hxs ⊢
        rw [hxs]
      rw [hcc, splitOn2, if_neg (by simp [h1]), ← hxs, hx]

theorem lookupA_setA {α : Type} (l : List (Str × α)) (k : Str) (v : α) :
    lookupA (setA l k v) k = some v := by
  induction l with
  | nil => simp [setA, lookupA]
  | cons p rest ih =>
    obtain ⟨k', v'⟩ := p
    rw [setA]
    by_cases hk : k' = k
    · rw [if_pos hk, lookupA, if_pos hk]
    · rw [if_neg hk, lookupA, if_neg hk, ih]

/-! ### Routing lemmas for `execute` -/

theorem execute_pipe_route (cfg : Config) (fuel : Nat) (st : TermState) (line : Str)
    (hs : pyStrip line = line) (hne : line ≠ []) (hh : line.head? ≠ some '#')
    (hp : hasChar line '|' = true) :
    execute cfg (fuel + 1) st line =
      handle_pipe (execute cfg fuel) { st with history := st.history ++ [line] } line := by
  rw [execute, hs, if_neg (by simp [hne, hh])]
  simp [hp]

theorem execute_redirect_route (cfg : Config) (fuel : Nat) (st : TermState) (line : Str)
    (hs : pyStrip line = line) (hne : line ≠ []) (hh : line.head? ≠ some '#')
    (hp : hasChar line '|' = false) (hg : hasChar line '>' = true) :
    execute cfg (fuel + 1) st line =
      handle_redirect (execute cfg fuel) { st with history := st.history ++ [line] } line := by
  rw [execute, hs, if_neg (by simp [hne, hh])]
  simp [hp, hg]

theorem execute_dispatch_route (cfg : Config) (fuel : Nat) (st : TermState) (line : Str)
    (hs : pyStrip line = line) (hne : line ≠ []) (hh : line.head? ≠ some '#')
    (hp : hasChar line '|' = false) (hg : hasChar line '>' = false) :
    execute cfg (fuel + 1) st line =
      dispatchResult cfg { st with history := st.history ++ [line] } line := by
  have hg' : ∀ x ∈ line, x ≠ '>' := by simpa [hasChar] using hg
  have hgg : hasSub2 '>' '>' line = false := hasSub2_of_no_first hg'
  rw [execute, hs, if_neg (by simp [hne, hh])]
  simp [hp, hg, hgg]

theorem pipeGo_eq_runSegs (exec1 : TermState → Str → Str × TermState) :
    ∀ (cs : List Str) (c : Str) (st : TermState) (out : Str),
      pipeGo exec1 out st (c :: cs) = runSegs exec1 st (c :: cs) := by
  intro cs
  induction cs with
  | nil =>
    intro c st out
    simp only [pipeGo, runSegs, ite_self]
  | cons c' cs' ih =>
    intro c st out
    simp only [pipeGo, runSegs, ite_self]
    rw [← ih c' (exec1 st (pyStrip c)).2 (exec1 st (pyStrip c)).1]
    conv_rhs => rw [pipeGo]
    simp only [ite_self]

/-! ### Concrete session material shared by the witnesses -/

/-- A concrete `echo`-like registered handler used by witnesses: returns
its arguments joined by spaces, leaving the state unchanged. -/
def echoH : Handler := fun args st => .ok (List.intercalate [' '] args, st)

/-- A concrete handler that raises, used by witnesses for the dispatch
boundary. -/
def boomH : Handler := fun _ _ => .error (s2l "kaput")

/-- A concrete registry and host fallback for witnesses. -/
def cfg0 : Config :=
  { commands := [(s2l "echo", echoH), (s2l "boom", boomH)], external := fun _ => [] }

/-- A concrete session state for witnesses; the alias `g` expands to text
containing redirection syntax. -/
def st0 : TermState :=
  { cwd := s2l "C:\\base", history := [], aliases := [(s2l "g", s2l "echo hi > f")],
    running := true, files := [], osCwd := s2l "C:\\base", home := s2l "C:\\Users\\u" }

/-! ### C6: pipe semantics -/

/-- C6: for every line containing `|`, execution splits the line on `|`,
executes each segment independently as a full command (arguments parsed
fresh inside the nested `execute`), feeds no segment's output to the next,
and returns exactly the result of the last segment (`runSegs` discards all
intermediate outputs). -/
theorem C6_pipe_segments (cfg : Config) (fuel : Nat) (st : TermState) (line : Str)
    (hs : pyStrip line = line) (hne : line ≠ []) (hh : line.head? ≠ some '#')
    (hp : hasChar line '|' = true) :
    execute cfg (fuel + 1) st line =
      runSegs (execute cfg fuel) { st with history := st.history ++ [line] }
        (splitOnChar '|' line) := by
  rw [execute_pipe_route cfg fuel st line hs hne hh hp, handle_pipe]
  cases hsp : splitOnChar '|' line with
  | nil => exact absurd hsp (splitOnChar_ne_nil '|' line)
  | cons c cs => exact pipeGo_eq_runSegs _ cs c _ []

/-- Witness for C6 at the concrete line `echo a | echo b`. -/
theorem C6_pipe_segments_witness :
    (pyStrip (s2l "echo a | echo b") = s2l "echo a | echo b" ∧
     s2l "echo a | echo b" ≠ [] ∧
     (s2l "echo a | echo b").head? ≠ some '#' ∧
     hasChar (s2l "echo a | echo b") '|' = true) ∧
    execute cfg0 (1 + 1) st0 (s2l "echo a | echo b") =
      runSegs (execute cfg0 1) { st0 with history := st0.history ++ [s2l "echo a | echo b"] }
        (splitOnChar '|' (s2l "echo a | echo b")) :=
  ⟨⟨by decide, by decide, by decide, by decide⟩,
   C6_pipe_segments cfg0 1 st0 (s2l "echo a | echo b")
     (by decide) (by decide) (by decide) (by decide)⟩

/-! ### C7: history numbering -/

/-- Consecutive integers starting at `start`. -/
def intRange (start : Int) : Nat → List Int
  | 0 => []
  | n + 1 => start :: intRange (start + 1) n

theorem enumFrom_map_fmt (l : List Str) :
    ∀ i, (enumFrom i l).map (fun p => fmtHist p.1 p.2) =
      List.zipWith fmtHist (intRange i l.length) l := by
  induction l with
  | nil => intro i; rfl
  | cons a as ih =>
    intro i
    rw [enumFrom, List.length_cons, intRange, List.map_cons, List.zipWith_cons_cons, ih]

theorem intRange_getLast :
    ∀ (n : Nat) (start : Int), (intRange start n).getLast? =
      if n = 0 then none else some (start + n - 1) := by
  intro n
  induction n with
  | zero => intro start; rfl
  | succ m ih =>
    intro start
    cases m with
    | zero => simp [intRange]
    | succ k =>
      have h1 : intRange start (k + 1 + 1) = start :: (start + 1) :: intRange (start + 1 + 1) k := rfl
      rw [h1, List.getLast?_cons_cons]
      have h2 : (start + 1) :: intRange (start + 1 + 1) k = intRange (start + 1) (k + 1) := rfl
      rw [h2, ih (start + 1), if_neg (by omega), if_neg (by omega)]
      congr 1
      push_cast
      ring

/-- C7: with `N` entries in the history, `history 5` (and the default
`history`) renders exactly the most recent `min N 5` (resp. `min N 10`)
entries in their original order, numbered consecutively so that the 1-based
numbers continue from the full history length: the first shown entry is
numbered `N - min N 5 + 1` and the last is numbered `N`. -/
theorem C7_history_numbering (h : List Str) (cwd : Str) :
    (SystemCommands.history [s2l "5"] cwd h =
      List.intercalate [('\n' : Char)]
        (List.zipWith fmtHist
          (intRange (((h.length - min h.length 5 : Nat) : Int) + 1) (min h.length 5))
          (h.drop (h.length - min h.length 5)))) ∧
    (SystemCommands.history [] cwd h =
      List.intercalate [('\n' : Char)]
        (List.zipWith fmtHist
          (intRange (((h.length - min h.length 10 : Nat) : Int) + 1) (min h.length 10))
          (h.drop (h.length - min h.length 10)))) ∧
    ((intRange (((h.length - min h.length 5 : Nat) : Int) + 1) (min h.length 5)).getLast? =
      if h.length = 0 then none else some (h.length : Int)) := by
  have hkey : ∀ c : Nat, 0 < c →
      List.intercalate [('\n' : Char)]
        ((enumFrom (max 0 ((h.length : Int) - (c : Int)) + 1)
          (h.drop (max 0 ((h.length : Int) - (c : Int))).toNat)).map
            (fun p => fmtHist p.1 p.2)) =
      List.intercalate [('\n' : Char)]
        (List.zipWith fmtHist
          (intRange (((h.length - min h.length c : Nat) : Int) + 1) (min h.length c))
          (h.drop (h.length - min h.length c))) := by
    intro c hc
    have h1 : (max 0 ((h.length : Int) - (c : Int))).toNat = h.length - min h.length c := by
      omega
    have h2 : max 0 ((h.length : Int) - (c : Int)) + 1 =
        ((h.length - min h.length c : Nat) : Int) + 1 := by
      omega
    rw [h1, h2, enumFrom_map_fmt]
    have h3 : (h.drop (h.length - min h.length c)).length = min h.length c := by
      rw [List.length_drop]
      omega
    rw [h3]
  refine ⟨?_, ?_, ?_⟩
  · have hint : pyInt (s2l "5") = some 5 := by decide
    rw [SystemCommands.history]
    simp only [hint]
    exact hkey 5 (by omega)
  · rw [SystemCommands.history]
    exact hkey 10 (by omega)
  · rw [intRange_getLast]
    rcases Nat.eq_zero_or_pos h.length with hN | hN
    · simp [hN]
    · rw [if_neg (by omega), if_neg (by omega)]
      congr 1
      omega

/-! ### C9: the dispatch boundary catches handler failures -/

/-- C9: when the line dispatches to a registered handler and the handler
raises, `execute` returns the uniformly formatted error line prefixed with
the command name, the failure does not escape (`execute` returns normally),
and the session's running flag is unchanged. -/
theorem C9_dispatch_catches (cfg : Config) (fuel : Nat) (st : TermState) (line : Str)
    (cmd : Str) (args : List Str) (hnd : Handler) (e : Str)
    (hs : pyStrip line = line) (hne : line ≠ []) (hh : line.head? ≠ some '#')
    (hp : hasChar line '|' = false) (hg : hasChar line '>' = false)
    (hparse : parse_command st.aliases line = (cmd, args))
    (hlook : lookupA cfg.commands cmd = some hnd)
    (herr : hnd args { st with history := st.history ++ [line] } = .error e) :
    execute cfg (fuel + 1) st line =
      (ColorOutput.error (cmd ++ s2l ": " ++ e),
        { st with history := st.history ++ [line] }) ∧
    (execute cfg (fuel + 1) st line).2.running = st.running := by
  have hroute := execute_dispatch_route cfg fuel st line hs hne hh hp hg
  have ha : ({ st with history := st.history ++ [line] } : TermState).aliases = st.aliases := rfl
  have hmain : execute cfg (fuel + 1) st line =
      (ColorOutput.error (cmd ++ s2l ": " ++ e),
        { st with history := st.history ++ [line] }) := by
    rw [hroute, dispatchResult, ha, hparse]
    simp only [hlook, herr]
  exact ⟨hmain, by rw [hmain]⟩

/-- Witness for C9 at the concrete line `boom now` with a raising
handler. -/
theorem C9_dispatch_catches_witness :
    (parse_command st0.aliases (s2l "boom now") = (s2l "boom", [s2l "now"]) ∧
     lookupA cfg0.commands (s2l "boom") = some boomH ∧
     boomH [s2l "now"] { st0 with history := st0.history ++ [s2l "boom now"] } =
       .error (s2l "kaput")) ∧
    execute cfg0 (1 + 1) st0 (s2l "boom now") =
      (ColorOutput.error (s2l "boom" ++ s2l ": " ++ s2l "kaput"),
        { st0 with history := st0.history ++ [s2l "boom now"] }) ∧
    (execute cfg0 (1 + 1) st0 (s2l "boom now")).2.running = st0.running :=
  ⟨⟨by decide, rfl, rfl⟩,
   C9_dispatch_catches cfg0 1 st0 (s2l "boom now") (s2l "boom") [s2l "now"] boomH
     (s2l "kaput") (by decide) (by decide) (by decide) (by decide) (by decide)
     (by decide) rfl rfl⟩

/-! ### C5: routing happens on the raw pre-alias line -/

/-- C5 as amended: the pipe/redirect substring checks are applied to the
raw, pre-alias line; alias expansion happens only inside `parse_command`
after routing, so a line whose own text has no `|` or `>` is dispatched as
an ordinary command even when its first word's alias replacement introduces
those characters — the operators end up as plain arguments. -/
theorem C5_routing_pre_alias (cfg : Config) (fuel : Nat) (st : TermState) (line : Str)
    (cmd : Str) (args : List Str) (hnd : Handler) (out : Str) (st2 : TermState)
    (hs : pyStrip line = line) (hne : line ≠ []) (hh : line.head? ≠ some '#')
    (hp : hasChar line '|' = false) (hg : hasChar line '>' = false)
    (hparse : parse_command st.aliases line = (cmd, args))
    (hlook : lookupA cfg.commands cmd = some hnd)
    (hok : hnd args { st with history := st.history ++ [line] } = .ok (out, st2)) :
    execute cfg (fuel + 1) st line = (out, st2) := by
  have hroute := execute_dispatch_route cfg fuel st line hs hne hh hp hg
  have ha : ({ st with history := st.history ++ [line] } : TermState).aliases = st.aliases := rfl
  rw [hroute, dispatchResult, ha, hparse]
  simp only [hlook, hok]

/-- Counterexample to C5 as stated: the alias `g` expands to
`echo hi > f`, yet the line `g` is not routed through the redirect router —
the `>` becomes an ordinary argument of `echo`, its output is returned, and
no file is written. -/
theorem C5_counterexample :
    execute cfg0 2 st0 (s2l "g") = (s2l "hi > f", { st0 with history := [s2l "g"] }) ∧
    (execute cfg0 2 st0 (s2l "g")).2.files = [] := by
  exact ⟨by decide, by decide⟩

/-- Witness for the amended C5 at the concrete aliased line `g`. -/
theorem C5_routing_pre_alias_witness :
    (parse_command st0.aliases (s2l "g") = (s2l "echo", [s2l "hi", s2l ">", s2l "f"]) ∧
     lookupA cfg0.commands (s2l "echo") = some echoH ∧
     echoH [s2l "hi", s2l ">", s2l "f"] { st0 with history := st0.history ++ [s2l "g"] } =
       .ok (s2l "hi > f", { st0 with history := st0.history ++ [s2l "g"] })) ∧
    execute cfg0 (1 + 1) st0 (s2l "g") =
      (s2l "hi > f", { st0 with history := st0.history ++ [s2l "g"] }) :=
  ⟨⟨by decide, rfl, rfl⟩,
   C5_routing_pre_alias cfg0 1 st0 (s2l "g") (s2l "echo") [s2l "hi", s2l ">", s2l "f"]
     echoH (s2l "hi > f") { st0 with history := st0.history ++ [s2l "g"] }
     (by decide) (by decide) (by decide) (by decide) (by decide) (by decide) rfl rfl⟩

/-! ### C8: redirect syntax errors -/

/-- C8 as amended: when splitting the line on the detected redirect
operator yields a number of parts different from two, the interpreter
reports the syntax error and performs no command execution and no file
write (the state is unchanged apart from the history entry).  The
non-emptiness of the two parts is not checked by the code. -/
theorem C8_redirect_syntax_error (cfg : Config) (fuel : Nat) (st : TermState) (line : Str)
    (hs : pyStrip line = line) (hne : line ≠ []) (hh : line.head? ≠ some '#')
    (hp : hasChar line '|' = false) (hg : hasChar line '>' = true)
    (hparts : (if hasSub2 '>' '>' line = true then splitOn2 '>' '>' line
               else splitOnChar '>' line).length ≠ 2) :
    execute cfg (fuel + 1) st line =
      (ColorOutput.error (s2l "Invalid redirection syntax"),
        { st with history := st.history ++ [line] }) := by
  rw [execute_redirect_route cfg fuel st line hs hne hh hp hg, handle_redirect]
  simp only [if_pos hparts]

/-- Witness for the amended C8 at the concrete line `x > y > z` (three
parts). -/
theorem C8_redirect_syntax_error_witness :
    ((if hasSub2 '>' '>' (s2l "x > y > z") = true then splitOn2 '>' '>' (s2l "x > y > z")
      else splitOnChar '>' (s2l "x > y > z")).length ≠ 2) ∧
    execute cfg0 (1 + 1) st0 (s2l "x > y > z") =
      (ColorOutput.error (s2l "Invalid redirection syntax"),
        { st0 with history := st0.history ++ [s2l "x > y > z"] }) :=
  ⟨by decide,
   C8_redirect_syntax_error cfg0 1 st0 (s2l "x > y > z")
     (by decide) (by decide) (by decide) (by decide) (by decide) (by decide)⟩

/-- Counterexample to C8 as stated: the line `> f` splits into two parts
with an empty left-hand command, yet no syntax error is reported — the
empty command is executed as a no-op and a lone newline is written to the
file. -/
theorem C8_counterexample :
    execute cfg0 3 st0 (s2l "> f") =
      ([], { st0 with
              history := [s2l "> f"]
              files := [(s2l "C:\\base\\f", [('\n' : Char)])] }) ∧
    (execute cfg0 3 st0 (s2l "> f")).1 ≠ ColorOutput.error (s2l "Invalid redirection syntax") ∧
    (execute cfg0 3 st0 (s2l "> f")).2.files ≠ [] := by
  exact ⟨by decide, by decide, by decide⟩

/-! ### C10: sub-commands re-append to history -/

theorem dropWhile_head_fails {p : Char → Bool} :
    ∀ {l : Str} {c : Char} {cs : Str}, l.dropWhile p = c :: cs → p c = false := by
  intro l
  induction l with
  | nil => intro c cs h; simp at h
  | cons x xs ih =>
    intro c cs h
    rw [List.dropWhile_cons] at h
    by_cases hx : p x = true
    · rw [if_pos hx] at h
      exact ih h
    · rw [if_neg hx] at h
      cases h
      simpa using hx

theorem dropWhile_idem (p : Char → Bool) (l : Str) :
    (l.dropWhile p).dropWhile p = l.dropWhile p := by
  cases h : l.dropWhile p with
  | nil => rfl
  | cons c cs =>
    rw [List.dropWhile_cons, if_neg (by simp [dropWhile_head_fails h])]

theorem pyLStrip_idem (l : Str) : pyLStrip (pyLStrip l) = pyLStrip l :=
  dropWhile_idem isWS l

theorem pyStrip_idem (l : Str) : pyStrip (pyStrip l) = pyStrip l := by
  have hA : pyRStrip (pyStrip l) = pyStrip l := by
    cases hy : pyStrip l with
    | nil => rfl
    | cons d ds =>
      obtain ⟨t, ht⟩ : pyStrip l <:+ pyRStrip l := by
        rw [pyStrip, pyLStrip]
        exact List.dropWhile_suffix isWS
      have hxrev : (pyRStrip l).reverse = l.reverse.dropWhile isWS := by
        rw [pyRStrip, List.reverse_reverse]
      have hyrev : (pyRStrip l).reverse = (pyStrip l).reverse ++ t.reverse := by
        rw [← ht, List.reverse_append]
      obtain ⟨c, cs, hc⟩ : ∃ c cs, (d :: ds).reverse = c :: cs := by
        cases hrev : (d :: ds).reverse with
        | nil => exact absurd hrev (by simp)
        | cons c cs => exact ⟨c, cs, rfl⟩
      have hfail : isWS c = false := by
        apply @dropWhile_head_fails isWS l.reverse c (cs ++ t.reverse)
        rw [← hxrev, hyrev, hy, hc, List.cons_append]
      rw [pyRStrip, hc, List.dropWhile_cons, if_neg (by simp [hfail]), ← hc,
        List.reverse_reverse]
  rw [pyStrip, hA]
  show pyLStrip (pyLStrip (pyRStrip l)) = pyStrip l
  rw [pyLStrip_idem]
  rfl

/-- The collaborator contract the repository's handlers obey: a handler
that returns normally does not touch the session history (only the
`history` collaborator reads it; none writes it). -/
def PreservesHistory (cfg : Config) : Prop :=
  ∀ name hnd, (name, hnd) ∈ cfg.commands → ∀ args st out st2,
    hnd args st = .ok (out, st2) → st2.history = st.history

theorem lookupA_mem {α : Type} {l : List (Str × α)} {k : Str} {v : α}
    (h : lookupA l k = some v) : (k, v) ∈ l := by
  induction l with
  | nil => simp [lookupA] at h
  | cons p rest ih =>
    obtain ⟨k', v'⟩ := p
    rw [lookupA] at h
    by_cases hk : k' = k
    · rw [if_pos hk] at h
      cases h
      subst hk
      exact List.mem_cons_self _ _
    · rw [if_neg hk] at h
      exact List.mem_cons_of_mem _ (ih h)

theorem dispatchResult_history (cfg : Config) (st : TermState) (line : Str)
    (hph : PreservesHistory cfg) :
    (dispatchResult cfg st line).2.history = st.history := by
  simp only [dispatchResult]
  cases hl : lookupA cfg.commands (parse_command st.aliases line).1 with
  | none => simp only [hl]
  | some hnd =>
    simp only [hl]
    cases hr : hnd (parse_command st.aliases line).2 st with
    | error e => simp only [hr]
    | ok r =>
      simp only [hr]
      obtain ⟨out, st2⟩ := r
      exact hph _ _ (lookupA_mem hl) _ _ _ _ hr

theorem execute_plain_history (cfg : Config) (fuel : Nat) (st : TermState) (line : Str)
    (hph : PreservesHistory cfg)
    (hs : pyStrip line = line) (hne : line ≠ []) (hh : line.head? ≠ some '#')
    (hp : hasChar line '|' = false) (hg : hasChar line '>' = false) :
    (execute cfg (fuel + 1) st line).2.history = st.history ++ [line] := by
  rw [execute_dispatch_route cfg fuel st line hs hne hh hp hg,
    dispatchResult_history cfg _ line hph]

theorem pipeGo_history (cfg : Config) (fuel : Nat) (hph : PreservesHistory cfg) :
    ∀ (segs : List Str) (st : TermState) (out : Str),
      (∀ s ∈ segs, pyStrip s ≠ [] ∧ (pyStrip s).head? ≠ some '#' ∧
        hasChar (pyStrip s) '|' = false ∧ hasChar (pyStrip s) '>' = false) →
      (pipeGo (execute cfg (fuel + 1)) out st segs).2.history =
        st.history ++ segs.map pyStrip := by
  intro segs
  induction segs with
  | nil =>
    intro st out hcond
    simp [pipeGo]
  | cons c cs ih =>
    intro st out hcond
    obtain ⟨h1, h2, h3, h4⟩ := hcond c (List.mem_cons_self c cs)
    have hrest := fun s hs => hcond s (List.mem_cons_of_mem c hs)
    rw [pipeGo]
    simp only [ite_self]
    rw [ih _ _ hrest,
      execute_plain_history cfg fuel st (pyStrip c) hph (pyStrip_idem c) h1 h2 h3 h4]
    simp

/-- C10 as amended: provided the sub-commands are themselves plain
(non-blank, non-comment, free of `|` and `>`), a redirect line appends two
history entries — the full raw line and then the stripped left-hand
command — because `_handle_redirect` re-invokes the top-level `execute`;
and a pipe line appends the raw line followed by each stripped segment in
order (`k + 1` entries for `k` segments), because `_handle_pipe` re-invokes
`execute` per segment.  Handlers are assumed not to write to the history,
as none of the repository's do. -/
theorem C10_subcommands_history (cfg : Config) (fuel : Nat) (st : TermState)
    (line left : Str) (hph : PreservesHistory cfg)
    (hs : pyStrip line = line) (hne : line ≠ []) (hh : line.head? ≠ some '#') :
    ((hasChar line '|' = false) → (hasChar line '>' = true) →
      ((if hasSub2 '>' '>' line = true then splitOn2 '>' '>' line
        else splitOnChar '>' line).length = 2) →
      left = pyStrip ((if hasSub2 '>' '>' line = true then splitOn2 '>' '>' line
        else splitOnChar '>' line).headD []) →
      left ≠ [] → left.head? ≠ some '#' →
      hasChar left '|' = false → hasChar left '>' = false →
      (execute cfg (fuel + 1 + 1) st line).2.history = st.history ++ [line, left])
    ∧ ((hasChar line '|' = true) →
      (∀ s ∈ splitOnChar '|' line, pyStrip s ≠ [] ∧ (pyStrip s).head? ≠ some '#' ∧
        hasChar (pyStrip s) '|' = false ∧ hasChar (pyStrip s) '>' = false) →
      (execute cfg (fuel + 1 + 1) st line).2.history =
        st.history ++ line :: (splitOnChar '|' line).map pyStrip) := by
  constructor
  · intro hp hg hp2 hleft hl1 hl2 hl3 hl4
    rw [execute_redirect_route cfg (fuel + 1) st line hs hne hh hp hg]
    simp only [handle_redirect]
    rw [if_neg (by simp [hp2])]
    show (execute cfg (fuel + 1)
        { st with history := st.history ++ [line] }
        (pyStrip ((if hasSub2 '>' '>' line = true then splitOn2 '>' '>' line
          else splitOnChar '>' line).headD []))).2.history = st.history ++ [line, left]
    rw [← hleft]
    have hsl : pyStrip left = left := by rw [hleft, pyStrip_idem]
    rw [execute_plain_history cfg fuel _ left hph hsl hl1 hl2 hl3 hl4]
    simp
  · intro hp hcond
    rw [execute_pipe_route cfg (fuel + 1) st line hs hne hh hp, handle_pipe,
      pipeGo_history cfg fuel hph (splitOnChar '|' line) _ [] hcond]
    simp

/-- The concrete witness registry satisfies the handler contract on
history. -/
theorem cfg0_preserves : PreservesHistory cfg0 := by
  intro name hnd hmem args st out st2 hok
  simp only [cfg0, List.mem_cons, List.not_mem_nil, or_false] at hmem
  rcases hmem with h | h
  · rw [Prod.mk.injEq] at h
    rw [h.2] at hok
    simp only [echoH, Except.ok.injEq, Prod.mk.injEq] at hok
    rw [← hok.2]
  · rw [Prod.mk.injEq] at h
    rw [h.2] at hok
    simp [boomH] at hok

/-- Witness for the amended C10: `echo hi > f` appends two entries, and
`echo a | echo b` appends three. -/
theorem C10_subcommands_history_witness :
    (execute cfg0 (1 + 1 + 1) st0 (s2l "echo hi > f")).2.history =
      st0.history ++ [s2l "echo hi > f", s2l "echo hi"] ∧
    (execute cfg0 (1 + 1 + 1) st0 (s2l "echo a | echo b")).2.history =
      st0.history ++ (s2l "echo a | echo b") ::
        (splitOnChar '|' (s2l "echo a | echo b")).map pyStrip :=
  ⟨(C10_subcommands_history cfg0 1 st0 (s2l "echo hi > f") (s2l "echo hi")
      cfg0_preserves (by decide) (by decide) (by decide)).1
    (by decide) (by decide) (by decide) (by decide) (by decide) (by decide)
    (by decide) (by decide),
   (C10_subcommands_history cfg0 1 st0 (s2l "echo a | echo b") []
      cfg0_preserves (by decide) (by decide) (by decide)).2
    (by decide) (by decide)⟩

/-- Counterexample to C10 as stated: the redirect line `> f` contains `>`
and no `|`, yet executing it appends only one history entry (the raw line),
because the empty left-hand command is a no-op that never reaches the
history append. -/
theorem C10_counterexample :
    (execute cfg0 3 st0 (s2l "> f")).2.history = [s2l "> f"] ∧
    ¬ ((execute cfg0 3 st0 (s2l "> f")).2.history.length = 2) :=
  ⟨by decide, by decide⟩

/-! ### C4: redirect write semantics -/

theorem pyRStrip_append_right {f : Str} (hf : pyStrip f = f) (hfne : f ≠ [])
    (a : Str) : pyRStrip (a ++ f) = a ++ f := by
  obtain ⟨y, ys, hy, hyw⟩ := getLast_not_ws hf hfne
  have hd : (a ++ f).reverse.dropWhile isWS = (a ++ f).reverse := by
    rw [List.reverse_append, hy, List.cons_append, List.dropWhile_cons,
      if_neg (by simp [hyw])]
  rw [pyRStrip, hd, List.reverse_reverse]

theorem pyLStrip_append_left {c : Str} (hc : pyStrip c = c) (hcne : c ≠ [])
    (b : Str) : pyLStrip (c ++ b) = c ++ b := by
  obtain ⟨x, xs, hx⟩ : ∃ x xs, c = x :: xs := by
    cases c with
    | nil => exact absurd rfl hcne
    | cons x xs => exact ⟨x, xs, rfl⟩
  subst hx
  have hxw : isWS x = false := head_not_ws hc
  rw [List.cons_append, pyLStrip, List.dropWhile_cons, if_neg (by simp [hxw])]

theorem pyStrip_sandwich {c f : Str} (hc : pyStrip c = c) (hcne : c ≠ [])
    (hf : pyStrip f = f) (hfne : f ≠ []) (mid : Str) :
    pyStrip (c ++ mid ++ f) = c ++ mid ++ f := by
  rw [pyStrip, pyRStrip_append_right hf hfne (c ++ mid), List.append_assoc,
    pyLStrip_append_left hc hcne (mid ++ f), ← List.append_assoc]

theorem head?_append_left {c : Str} (hcne : c ≠ []) (b : Str) :
    (c ++ b).head? = c.head? := by
  cases c with
  | nil => exact absurd rfl hcne
  | cons x xs => rfl

theorem hasChar_false {l : Str} {c : Char} (h : ∀ x ∈ l, x ≠ c) :
    hasChar l c = false := by
  simp only [hasChar, List.any_eq_false, decide_eq_true_eq]
  exact h

theorem hasChar_append_false {a b : Str} {c : Char}
    (ha : hasChar a c = false) (hb : hasChar b c = false) :
    hasChar (a ++ b) c = false := by
  simp only [hasChar, List.any_append, Bool.or_eq_false_iff]
  exact ⟨ha, hb⟩

theorem hasChar_append_right {a b : Str} {c : Char} (hb : hasChar b c = true) :
    hasChar (a ++ b) c = true := by
  simp only [hasChar, List.any_append, Bool.or_eq_true]
  right
  exact hb

theorem hasChar_append_left {a b : Str} {c : Char} (ha : hasChar a c = true) :
    hasChar (a ++ b) c = true := by
  simp only [hasChar, List.any_append, Bool.or_eq_true]
  left
  exact ha

theorem redirect_once (cfg : Config) (fuel : Nat) (st : TermState) (c f : Str)
    (hc : pyStrip c = c) (hcne : c ≠ []) (hch : c.head? ≠ some '#')
    (hf : pyStrip f = f) (hfne : f ≠ [])
    (hcp : ∀ x ∈ c, x ≠ '|') (hfp : ∀ x ∈ f, x ≠ '|')
    (hcg : ∀ x ∈ c, x ≠ '>') (hfg : ∀ x ∈ f, x ≠ '>') :
    execute cfg (fuel + 1) st (c ++ s2l " > " ++ f) =
      ([], { (execute cfg fuel { st with history := st.history ++ [c ++ s2l " > " ++ f] } c).2 with
        files := setA
          (execute cfg fuel { st with history := st.history ++ [c ++ s2l " > " ++ f] } c).2.files
          (resolveRedirect
            (execute cfg fuel { st with history := st.history ++ [c ++ s2l " > " ++ f] } c).2 f)
          ((execute cfg fuel { st with history := st.history ++ [c ++ s2l " > " ++ f] } c).1
            ++ [('\n' : Char)]) }) := by
  have hsl : pyStrip (c ++ s2l " > " ++ f) = c ++ s2l " > " ++ f :=
    pyStrip_sandwich hc hcne hf hfne _
  have hlne : c ++ s2l " > " ++ f ≠ [] := by simp [hcne]
  have hlh : (c ++ s2l " > " ++ f).head? ≠ some '#' := by
    rw [List.append_assoc, head?_append_left hcne]
    exact hch
  have hpl : hasChar (c ++ s2l " > " ++ f) '|' = false :=
    hasChar_append_false (hasChar_append_false (hasChar_false hcp) (by decide))
      (hasChar_false hfp)
  have hgl : hasChar (c ++ s2l " > " ++ f) '>' = true :=
    hasChar_append_left (hasChar_append_right (by decide))
  rw [execute_redirect_route cfg fuel st _ hsl hlne hlh hpl hgl]
  simp only [handle_redirect]
  have hgg : hasSub2 '>' '>' (c ++ s2l " > " ++ f) = false := hasSub2_mid hcg hfg
  have hshape : c ++ s2l " > " ++ f = (c ++ [' ']) ++ '>' :: (' ' :: f) := by
    simp [s2l]
  have hsplit : splitOnChar '>' (c ++ s2l " > " ++ f) = [c ++ [' '], ' ' :: f] := by
    rw [hshape, splitOnChar_append_sep _ (by
      intro x hx
      rcases List.mem_append.mp hx with h | h
      · exact hcg x h
      · simp at h
        subst h
        decide),
      splitOnChar_no (by
        intro x hx
        rcases List.mem_cons.mp hx with h | h
        · subst h; decide
        · exact hfg x h)]
  rw [hgg]
  simp only [Bool.false_eq_true, if_false]
  rw [hsplit]
  simp only [List.length_cons, List.length_nil]
  rw [if_neg (by omega)]
  simp only [List.headD_cons, List.getD_cons_succ, List.getD_cons_zero]
  rw [pyStrip_append_ws hc, pyStrip_ws_cons hf hfne]

theorem redirect_once_append (cfg : Config) (fuel : Nat) (st : TermState) (c f : Str)
    (hc : pyStrip c = c) (hcne : c ≠ []) (hch : c.head? ≠ some '#')
    (hf : pyStrip f = f) (hfne : f ≠ [])
    (hcp : ∀ x ∈ c, x ≠ '|') (hfp : ∀ x ∈ f, x ≠ '|')
    (hcg : ∀ x ∈ c, x ≠ '>') (hfg : ∀ x ∈ f, x ≠ '>') :
    execute cfg (fuel + 1) st (c ++ s2l " >> " ++ f) =
      ([], { (execute cfg fuel { st with history := st.history ++ [c ++ s2l " >> " ++ f] } c).2 with
        files := setA
          (execute cfg fuel { st with history := st.history ++ [c ++ s2l " >> " ++ f] } c).2.files
          (resolveRedirect
            (execute cfg fuel { st with history := st.history ++ [c ++ s2l " >> " ++ f] } c).2 f)
          ((lookupA
              (execute cfg fuel { st with history := st.history ++ [c ++ s2l " >> " ++ f] } c).2.files
              (resolveRedirect
                (execute cfg fuel { st with history := st.history ++ [c ++ s2l " >> " ++ f] } c).2 f)).getD []
            ++ (execute cfg fuel { st with history := st.history ++ [c ++ s2l " >> " ++ f] } c).1
            ++ [('\n' : Char)]) }) := by
  have hsl : pyStrip (c ++ s2l " >> " ++ f) = c ++ s2l " >> " ++ f :=
    pyStrip_sandwich hc hcne hf hfne _
  have hlne : c ++ s2l " >> " ++ f ≠ [] := by simp [hcne]
  have hlh : (c ++ s2l " >> " ++ f).head? ≠ some '#' := by
    rw [List.append_assoc, head?_append_left hcne]
    exact hch
  have hpl : hasChar (c ++ s2l " >> " ++ f) '|' = false :=
    hasChar_append_false (hasChar_append_false (hasChar_false hcp) (by decide))
      (hasChar_false hfp)
  have hgl : hasChar (c ++ s2l " >> " ++ f) '>' = true :=
    hasChar_append_left (hasChar_append_right (by decide))
  rw [execute_redirect_route cfg fuel st _ hsl hlne hlh hpl hgl]
  simp only [handle_redirect]
  have hshape : c ++ s2l " >> " ++ f = (c ++ [' ']) ++ '>' :: '>' :: (' ' :: f) := by
    simp [s2l]
  have hgg : hasSub2 '>' '>' (c ++ s2l " >> " ++ f) = true := by
    rw [hshape]
    exact hasSub2_append_occ _ _
  have hsplit : splitOn2 '>' '>' (c ++ s2l " >> " ++ f) = [c ++ [' '], ' ' :: f] := by
    rw [hshape, splitOn2_append_sep _ (by
      intro x hx
      rcases List.mem_append.mp hx with h | h
      · exact hcg x h
      · simp at h
        subst h
        decide),
      splitOn2_no (hasSub2_of_no_first (by
        intro x hx
        rcases List.mem_cons.mp hx with h | h
        · subst h; decide
        · exact hfg x h))]
  rw [hgg]
  simp only [if_true]
  rw [hsplit]
  simp only [List.length_cons, List.length_nil]
  rw [if_neg (by omega)]
  simp only [List.headD_cons, List.getD_cons_succ, List.getD_cons_zero]
  rw [pyStrip_append_ws hc, pyStrip_ws_cons hf hfne]

/-- The collaborator contract on the redirect-target files: a handler that
returns normally does not overwrite redirect-written files (the claim's
command is an output-producing command, not one that edits the
destination). -/
def PreservesFiles (cfg : Config) : Prop :=
  ∀ name hnd, (name, hnd) ∈ cfg.commands → ∀ args st out st2,
    hnd args st = .ok (out, st2) → st2.files = st.files

theorem dispatchResult_files (cfg : Config) (st : TermState) (line : Str)
    (hpf : PreservesFiles cfg) :
    (dispatchResult cfg st line).2.files = st.files := by
  simp only [dispatchResult]
  cases hl : lookupA cfg.commands (parse_command st.aliases line).1 with
  | none => simp only [hl]
  | some hnd =>
    simp only [hl]
    cases hr : hnd (parse_command st.aliases line).2 st with
    | error e => simp only [hr]
    | ok r =>
      simp only [hr]
      obtain ⟨out, st2⟩ := r
      exact hpf _ _ (lookupA_mem hl) _ _ _ _ hr

theorem execute_plain_files (cfg : Config) (fuel : Nat) (st : TermState) (line : Str)
    (hpf : PreservesFiles cfg)
    (hs : pyStrip line = line) (hne : line ≠ []) (hh : line.head? ≠ some '#')
    (hp : hasChar line '|' = false) (hg : hasChar line '>' = false) :
    (execute cfg (fuel + 1) st line).2.files = st.files := by
  rw [execute_dispatch_route cfg fuel st line hs hne hh hp hg,
    dispatchResult_files cfg _ line hpf]

/-- C4: redirect writes.  First conjunct: `command > file` writes exactly
the command's output plus one trailing newline to the resolved destination.
Second conjunct: running `command > file` again truncates — afterwards the
destination holds only the second run's output plus its newline.  Third
conjunct: `command >> file` twice, starting from an absent destination,
leaves both outputs concatenated in execution order, each with its trailing
newline.  The command is a plain output-producing command (no `|`/`>`, and
its handler does not itself edit the redirect-target files). -/
theorem C4_redirect_content (cfg : Config) (fuel : Nat) (st : TermState) (c f : Str)
    (hpf : PreservesFiles cfg)
    (hc : pyStrip c = c) (hcne : c ≠ []) (hch : c.head? ≠ some '#')
    (hf : pyStrip f = f) (hfne : f ≠ [])
    (hcp : ∀ x ∈ c, x ≠ '|') (hfp : ∀ x ∈ f, x ≠ '|')
    (hcg : ∀ x ∈ c, x ≠ '>') (hfg : ∀ x ∈ f, x ≠ '>') :
    (∀ rA, rA = execute cfg (fuel + 1)
        { st with history := st.history ++ [c ++ s2l " > " ++ f] } c →
      lookupA (execute cfg (fuel + 1 + 1) st (c ++ s2l " > " ++ f)).2.files
        (resolveRedirect rA.2 f) = some (rA.1 ++ [('\n' : Char)]))
    ∧ (∀ stA rB, stA = (execute cfg (fuel + 1 + 1) st (c ++ s2l " > " ++ f)).2 →
      rB = execute cfg (fuel + 1)
        { stA with history := stA.history ++ [c ++ s2l " > " ++ f] } c →
      lookupA (execute cfg (fuel + 1 + 1) stA (c ++ s2l " > " ++ f)).2.files
        (resolveRedirect rB.2 f) = some (rB.1 ++ [('\n' : Char)]))
    ∧ (∀ r1 p1, r1 = execute cfg (fuel + 1)
        { st with history := st.history ++ [c ++ s2l " >> " ++ f] } c →
      p1 = resolveRedirect r1.2 f →
      lookupA r1.2.files p1 = none →
      ∀ stB r2, stB = (execute cfg (fuel + 1 + 1) st (c ++ s2l " >> " ++ f)).2 →
      r2 = execute cfg (fuel + 1)
        { stB with history := stB.history ++ [c ++ s2l " >> " ++ f] } c →
      resolveRedirect r2.2 f = p1 →
      lookupA (execute cfg (fuel + 1 + 1) stB (c ++ s2l " >> " ++ f)).2.files p1 =
        some (r1.1 ++ [('\n' : Char)] ++ r2.1 ++ [('\n' : Char)])) := by
  refine ⟨?_, ?_, ?_⟩
  · intro rA hrA
    subst hrA
    rw [redirect_once cfg (fuel + 1) st c f hc hcne hch hf hfne hcp hfp hcg hfg]
    exact lookupA_setA _ _ _
  · intro stA rB hstA hrB
    subst hstA
    subst hrB
    rw [redirect_once cfg (fuel + 1) _ c f hc hcne hch hf hfne hcp hfp hcg hfg]
    exact lookupA_setA _ _ _
  · intro r1 p1 hr1 hp1 hnone stB r2 hstB hr2 hpeq
    subst hr2
    subst hstB
    subst hp1
    subst hr1
    have hinner := redirect_once_append cfg (fuel + 1) st c f hc hcne hch hf hfne hcp hfp hcg hfg
    rw [hinner] at hpeq ⊢
    dsimp only at hpeq ⊢
    rw [redirect_once_append cfg (fuel + 1) _ c f hc hcne hch hf hfne hcp hfp hcg hfg]
    dsimp only
    rw [hpeq, lookupA_setA]
    congr 1
    have hA : hasChar c '|' = false := hasChar_false hcp
    have hB : hasChar c '>' = false := hasChar_false hcg
    rw [execute_plain_files cfg fuel _ c hpf hc hcne hch hA hB]
    dsimp only
    rw [lookupA_setA, hnone]
    simp

/-- The concrete witness registry also satisfies the handler contract on
the redirect-target files. -/
theorem cfg0_preserves_files : PreservesFiles cfg0 := by
  intro name hnd hmem args st out st2 hok
  simp only [cfg0, List.mem_cons, List.not_mem_nil, or_false] at hmem
  rcases hmem with h | h
  · rw [Prod.mk.injEq] at h
    rw [h.2] at hok
    simp only [echoH, Except.ok.injEq, Prod.mk.injEq] at hok
    rw [← hok.2]
  · rw [Prod.mk.injEq] at h
    rw [h.2] at hok
    simp [boomH] at hok

/-- Witness for C4 at the concrete command `echo hi` and file `out.txt`:
one truncating write, a second truncating write from the resulting state,
and a double append starting from an absent file. -/
theorem C4_redirect_content_witness :
    PreservesFiles cfg0 ∧
    (lookupA (execute cfg0 (1 + 1 + 1) st0 (s2l "echo hi" ++ s2l " > " ++ s2l "out.txt")).2.files
      (resolveRedirect (execute cfg0 (1 + 1)
        { st0 with history := st0.history ++ [s2l "echo hi" ++ s2l " > " ++ s2l "out.txt"] }
        (s2l "echo hi")).2 (s2l "out.txt")) =
      some ((execute cfg0 (1 + 1)
        { st0 with history := st0.history ++ [s2l "echo hi" ++ s2l " > " ++ s2l "out.txt"] }
        (s2l "echo hi")).1 ++ [('\n' : Char)])) ∧
    (lookupA (execute cfg0 (1 + 1 + 1)
        ((execute cfg0 (1 + 1 + 1) st0 (s2l "echo hi" ++ s2l " > " ++ s2l "out.txt")).2)
        (s2l "echo hi" ++ s2l " > " ++ s2l "out.txt")).2.files
      (resolveRedirect (execute cfg0 (1 + 1)
        { (execute cfg0 (1 + 1 + 1) st0 (s2l "echo hi" ++ s2l " > " ++ s2l "out.txt")).2 with
          history := (execute cfg0 (1 + 1 + 1) st0 (s2l "echo hi" ++ s2l " > " ++ s2l "out.txt")).2.history
            ++ [s2l "echo hi" ++ s2l " > " ++ s2l "out.txt"] }
        (s2l "echo hi")).2 (s2l "out.txt")) =
      some ((execute cfg0 (1 + 1)
        { (execute cfg0 (1 + 1 + 1) st0 (s2l "echo hi" ++ s2l " > " ++ s2l "out.txt")).2 with
          history := (execute cfg0 (1 + 1 + 1) st0 (s2l "echo hi" ++ s2l " > " ++ s2l "out.txt")).2.history
            ++ [s2l "echo hi" ++ s2l " > " ++ s2l "out.txt"] }
        (s2l "echo hi")).1 ++ [('\n' : Char)])) ∧
    (lookupA (execute cfg0 (1 + 1 + 1)
        ((execute cfg0 (1 + 1 + 1) st0 (s2l "echo hi" ++ s2l " >> " ++ s2l "out.txt")).2)
        (s2l "echo hi" ++ s2l " >> " ++ s2l "out.txt")).2.files
      (resolveRedirect (execute cfg0 (1 + 1)
        { st0 with history := st0.history ++ [s2l "echo hi" ++ s2l " >> " ++ s2l "out.txt"] }
        (s2l "echo hi")).2 (s2l "out.txt")) =
      some ((execute cfg0 (1 + 1)
          { st0 with history := st0.history ++ [s2l "echo hi" ++ s2l " >> " ++ s2l "out.txt"] }
          (s2l "echo hi")).1 ++ [('\n' : Char)]
        ++ (execute cfg0 (1 + 1)
          { (execute cfg0 (1 + 1 + 1) st0 (s2l "echo hi" ++ s2l " >> " ++ s2l "out.txt")).2 with
            history := (execute cfg0 (1 + 1 + 1) st0 (s2l "echo hi" ++ s2l " >> " ++ s2l "out.txt")).2.history
              ++ [s2l "echo hi" ++ s2l " >> " ++ s2l "out.txt"] }
          (s2l "echo hi")).1 ++ [('\n' : Char)])) := by
  have hmain := C4_redirect_content cfg0 1 st0 (s2l "echo hi") (s2l "out.txt")
    cfg0_preserves_files (by decide) (by decide) (by decide) (by decide) (by decide)
    (by decide) (by decide) (by decide) (by decide)
  refine ⟨cfg0_preserves_files, hmain.1 _ rfl, hmain.2.1 _ _ rfl rfl, ?_⟩
  exact hmain.2.2 _ _ rfl rfl (by decide) _ _ rfl rfl (by decide)

/-! ### C3: alias expansion happens exactly once -/

theorem dropWhile_cons_false {p : Char → Bool} {x : Char} {xs : Str}
    (h : p x = false) : (x :: xs).dropWhile p = x :: xs := by
  rw [List.dropWhile_cons, if_neg (by simp [h])]

theorem takeWhile_append_all {p : Char → Bool} {a : Str} (b : Str)
    (h : ∀ x ∈ a, p x = true) :
    (a ++ b).takeWhile p = a ++ b.takeWhile p := by
  induction a with
  | nil => rfl
  | cons x xs ih =>
    rw [List.cons_append, List.takeWhile_cons, if_pos (h x (List.mem_cons_self x xs)),
      ih (fun z hz => h z (List.mem_cons_of_mem x hz)), List.cons_append]

theorem pyRStrip_append_allws {w : Str} (hw : ∀ x ∈ w, isWS x = true) (a : Str) :
    pyRStrip (a ++ w) = pyRStrip a := by
  rw [pyRStrip, List.reverse_append, List.dropWhile_append,
    if_pos (by
      rw [List.isEmpty_iff]
      exact List.dropWhile_eq_nil_iff.mpr (fun x hx => hw x (by simpa using hx))),
    ← pyRStrip]

theorem pyRStrip_append_keep {rest : Str} (h : pyRStrip rest ≠ []) (a : Str) :
    pyRStrip (a ++ rest) = a ++ pyRStrip rest := by
  have hdw : rest.reverse.dropWhile isWS ≠ [] := by
    intro hc
    apply h
    rw [pyRStrip, hc, List.reverse_nil]
  rw [pyRStrip, List.reverse_append, List.dropWhile_append,
    if_neg (by
      rw [List.isEmpty_iff]
      exact hdw),
    List.reverse_append, List.reverse_reverse, ← pyRStrip]

theorem allws_of_pyStrip_nil {l : Str} (h : pyStrip l = []) : ∀ x ∈ l, isWS x = true := by
  intro x hx
  have h1 : ∀ y ∈ l.reverse.dropWhile isWS, isWS y = true := by
    intro y hy
    have h2 : pyLStrip (pyRStrip l) = [] := h
    rw [pyLStrip] at h2
    have h3 := List.dropWhile_eq_nil_iff.mp h2
    apply h3
    rw [pyRStrip]
    simpa using hy
  have hxr : x ∈ l.reverse := by simpa using hx
  rw [← List.takeWhile_append_dropWhile (p := isWS) (l := l.reverse)] at hxr
  rcases List.mem_append.mp hxr with h2 | h2
  · exact List.mem_takeWhile_imp h2
  · exact h1 x h2

theorem pyStrip_of_nows {l : Str} (h : ∀ x ∈ l, isWS x = false) : pyStrip l = l := by
  cases l with
  | nil => rfl
  | cons c cs =>
    have hrev : (c :: cs).reverse.dropWhile isWS = (c :: cs).reverse := by
      cases hr : (c :: cs).reverse with
      | nil => rfl
      | cons y ys =>
        have hy : y ∈ c :: cs := by
          have hmem : y ∈ (c :: cs).reverse := by rw [hr]; exact List.mem_cons_self y ys
          exact List.mem_reverse.mp hmem
        exact dropWhile_cons_false (h y hy)
    rw [pyStrip, pyRStrip, hrev, List.reverse_reverse, pyLStrip,
      dropWhile_cons_false (h c (List.mem_cons_self c cs))]

theorem takeWhile_all {p : Char → Bool} {l : Str} (h : ∀ x ∈ l, p x = true) :
    l.takeWhile p = l := by
  have := takeWhile_append_all (p := p) (a := l) [] h
  simpa using this

theorem pySplitWs1_single {name : Str} (hne : name ≠ [])
    (hws : ∀ x ∈ name, isWS x = false) :
    pySplitWs1 name = [name] := by
  obtain ⟨x, xs, hx⟩ : ∃ x xs, name = x :: xs := by
    cases name with
    | nil => exact absurd rfl hne
    | cons x xs => exact ⟨x, xs, rfl⟩
  subst hx
  simp only [pySplitWs1]
  rw [dropWhile_cons_false (hws x (List.mem_cons_self x xs))]
  rw [if_neg (by simp)]
  rw [takeWhile_all (fun z hz => by simp [hws z hz])]
  rw [List.drop_length]
  simp

theorem pySplitWs1_two {name Y : Str} (hne : name ≠ [])
    (hws : ∀ x ∈ name, isWS x = false) (hY : Y.dropWhile isWS ≠ []) :
    pySplitWs1 (name ++ ' ' :: Y) = [name, Y.dropWhile isWS] := by
  obtain ⟨x, xs, hx⟩ : ∃ x xs, name = x :: xs := by
    cases name with
    | nil => exact absurd rfl hne
    | cons x xs => exact ⟨x, xs, rfl⟩
  subst hx
  simp only [pySplitWs1]
  have h1 : ((x :: xs) ++ ' ' :: Y).dropWhile isWS = (x :: xs) ++ ' ' :: Y := by
    rw [List.cons_append]
    exact dropWhile_cons_false (hws x (List.mem_cons_self x xs))
  rw [h1, if_neg (by simp)]
  have h2 : ((x :: xs) ++ ' ' :: Y).takeWhile (fun c => ¬ isWS c) = x :: xs := by
    rw [takeWhile_append_all _ (fun z hz => by simp [hws z hz]), List.takeWhile_cons,
      if_neg (by simp [isWS]), List.append_nil]
  rw [h2]
  have h3 : ((x :: xs) ++ ' ' :: Y).drop (x :: xs).length = ' ' :: Y :=
    List.drop_left _ _
  rw [h3]
  have h4 : (' ' :: Y).dropWhile isWS = Y.dropWhile isWS := by
    rw [List.dropWhile_cons, if_pos (by simp [isWS])]
  rw [h4, if_neg hY]

/-- C3 as amended: invoking `name args...` substitutes `name`'s replacement
exactly once and never re-scans it for further alias hits — the result is
the plain tokenization (`tokenize`, no alias lookup at all) of
`replacement args...`.  (Parsing `replacement args...` through
`parse_command` with `name` merely removed from the table is not in general
the same, since the replacement's own first word may be another alias.) -/
theorem C3_alias_once (aliases : List (Str × Str)) (name rep rest : Str)
    (hlook : lookupA aliases name = some rep)
    (hne : name ≠ []) (hws : ∀ x ∈ name, isWS x = false) :
    parse_command aliases (name ++ [' '] ++ rest) =
      (if pyStrip rest = [] then tokenize rep
       else tokenize (rep ++ [' '] ++ pyStrip rest)) := by
  have hnstrip : pyStrip name = name := pyStrip_of_nows hws
  by_cases hrest : pyStrip rest = []
  · have hallws : ∀ z ∈ [' '] ++ rest, isWS z = true := by
      intro z hz
      rcases List.mem_append.mp hz with h | h
      · simp at h
        subst h
        decide
      · exact allws_of_pyStrip_nil hrest z h
    have hstrip : pyStrip (name ++ [' '] ++ rest) = name := by
      rw [List.append_assoc, pyStrip, pyRStrip_append_allws hallws]
      exact hnstrip
    rw [if_pos hrest]
    simp only [parse_command]
    rw [hstrip, if_neg hne, pySplitWs1_single hne hws]
    simp only [List.headD_cons, hlook, List.length_cons, List.length_nil]
    rw [if_neg (by omega)]
  · have hRne : pyRStrip rest ≠ [] := by
      intro hc
      exact hrest (by rw [pyStrip, hc]; rfl)
    have hstrip : pyStrip (name ++ [' '] ++ rest) = name ++ ' ' :: pyRStrip rest := by
      rw [pyStrip, pyRStrip_append_keep hRne (name ++ [' ']), List.append_assoc,
        pyLStrip_append_left hnstrip hne]
      rfl
    rw [if_neg hrest]
    simp only [parse_command]
    rw [hstrip, if_neg (by simp), pySplitWs1_two hne hws (by exact hrest)]
    simp only [List.headD_cons, hlook, List.length_cons, List.length_nil]
    rw [if_pos (by omega)]
    rfl

/-- Counterexample to C3 as stated: with aliases `a=b` and `b=c`, parsing
`a` gives command `b`, but parsing `b` with `a` removed from the table
re-expands `b` and gives command `c`. -/
theorem C3_counterexample :
    parse_command [(s2l "a", s2l "b"), (s2l "b", s2l "c")] (s2l "a") = (s2l "b", []) ∧
    parse_command (removeA [(s2l "a", s2l "b"), (s2l "b", s2l "c")] (s2l "a"))
      (s2l "b") = (s2l "c", []) ∧
    parse_command [(s2l "a", s2l "b"), (s2l "b", s2l "c")] (s2l "a") ≠
      parse_command (removeA [(s2l "a", s2l "b"), (s2l "b", s2l "c")] (s2l "a"))
        (s2l "b") :=
  ⟨by decide, by decide, by decide⟩

/-- Witness for the amended C3 at the concrete table `a=b, b=c` and the
line `a x`: the replacement is tokenized directly, with no second alias
pass. -/
theorem C3_alias_once_witness :
    (lookupA [(s2l "a", s2l "b"), (s2l "b", s2l "c")] (s2l "a") = some (s2l "b") ∧
     s2l "a" ≠ [] ∧ (∀ x ∈ s2l "a", isWS x = false)) ∧
    parse_command [(s2l "a", s2l "b"), (s2l "b", s2l "c")] (s2l "a" ++ [' '] ++ s2l "x") =
      (if pyStrip (s2l "x") = [] then tokenize (s2l "b")
       else tokenize (s2l "b" ++ [' '] ++ pyStrip (s2l "x"))) :=
  ⟨⟨by decide, by decide, by decide⟩,
   C3_alias_once [(s2l "a", s2l "b"), (s2l "b", s2l "c")] (s2l "a") (s2l "b") (s2l "x")
     (by decide) (by decide) (by decide)⟩

/-! ### C1: the cd contract -/

theorem error_ne_nil (m : Str) : ColorOutput.error m ≠ [] := by
  have hpre : s2l "\x1b[31m✗ " ≠ [] := by decide
  intro h
  rw [ColorOutput.error, List.append_assoc] at h
  exact hpre (List.append_eq_nil.mp h).1

/-- C1 as amended: when the resolved path does not exist, `cd` returns the
unchanged working directory with a non-empty error message and leaves the
ambient state (hence the `OLDPWD` slot) untouched; the same holds when the
resolved path exists but is not a directory, provided the argument list is
non-empty — with no argument and a home path that is an existing
non-directory, `cd` instead raises an `IndexError` while formatting the
message.  On success `cd` returns the normalized resolved path as the new
working directory, sets `OLDPWD` to the prior one, and a subsequent `cd -`
resolves back to it (for the session-invariant normalized `cwd`). -/
theorem C1_cd_contract (os : OS) (args : List Str) (cwd : Str) :
    (osExists os (resolveCd os args cwd) = false →
      FileCommands.cd os args cwd =
        .ok ((cwd, ColorOutput.error (s2l "cd: " ++ args.headD (s2l "~")
          ++ s2l ": No such file or directory")), os) ∧
      ColorOutput.error (s2l "cd: " ++ args.headD (s2l "~")
          ++ s2l ": No such file or directory") ≠ []) ∧
    (∀ a rest, args = a :: rest →
      osExists os (resolveCd os args cwd) = true →
      osIsdir os (resolveCd os args cwd) = false →
      FileCommands.cd os args cwd =
        .ok ((cwd, ColorOutput.error (s2l "cd: " ++ a ++ s2l ": Not a directory")), os) ∧
      ColorOutput.error (s2l "cd: " ++ a ++ s2l ": Not a directory") ≠ []) ∧
    (osExists os (resolveCd os args cwd) = true →
      osIsdir os (resolveCd os args cwd) = true →
      FileCommands.cd os args cwd = .ok ((resolveCd os args cwd, []),
        { os with env := setA os.env (s2l "OLDPWD") cwd }) ∧
      (normpath cwd = cwd →
        resolveCd { os with env := setA os.env (s2l "OLDPWD") cwd } [s2l "-"]
          (resolveCd os args cwd) = cwd)) := by
  refine ⟨?_, ?_, ?_⟩
  · intro hex
    refine ⟨?_, error_ne_nil _⟩
    rw [FileCommands.cd.eq_def, if_pos (by simp [hex])]
  · intro a rest hargs hex hdir
    subst hargs
    refine ⟨?_, error_ne_nil _⟩
    rw [FileCommands.cd.eq_def, if_neg (by simp [hex]), if_pos (by simp [hdir])]
  · intro hex hdir
    constructor
    · rw [FileCommands.cd.eq_def, if_neg (by simp [hex]), if_neg (by simp [hdir])]
    · intro hnorm
      have hres : ∀ X : Str, resolveCd { os with env := setA os.env (s2l "OLDPWD") cwd }
          [s2l "-"] X =
          normpath ((lookupA (setA os.env (s2l "OLDPWD") cwd) (s2l "OLDPWD")).getD X) := by
        intro X
        simp [resolveCd]
      rw [hres, lookupA_setA]
      simpa using hnorm

/-- Counterexample to C1 as stated: with no argument and a home directory
that resolves to an existing non-directory file, `cd` raises an
`IndexError` (`args[0]` on an empty list while formatting the
`Not a directory` message) instead of returning the unchanged working
directory with an error message. -/
theorem C1_counterexample :
    FileCommands.cd
      { env := [], home := s2l "C:\\home.txt", cwdP := s2l "C:\\base",
        fs := [(s2l "C:\\home.txt", false)] } [] (s2l "C:\\base") =
      .error (s2l "list index out of range") ∧
    osExists
      { env := [], home := s2l "C:\\home.txt", cwdP := s2l "C:\\base",
        fs := [(s2l "C:\\home.txt", false)] }
      (resolveCd
        { env := [], home := s2l "C:\\home.txt", cwdP := s2l "C:\\base",
          fs := [(s2l "C:\\home.txt", false)] } [] (s2l "C:\\base")) = true ∧
    osIsdir
      { env := [], home := s2l "C:\\home.txt", cwdP := s2l "C:\\base",
        fs := [(s2l "C:\\home.txt", false)] }
      (resolveCd
        { env := [], home := s2l "C:\\home.txt", cwdP := s2l "C:\\base",
          fs := [(s2l "C:\\home.txt", false)] } [] (s2l "C:\\base")) = false :=
  ⟨rfl, by decide, by decide⟩

/-- A concrete ambient state for the C1 witness. -/
def os2 : OS :=
  { env := [(s2l "X", s2l "Y")], home := s2l "C:\\Users\\u", cwdP := s2l "C:\\base",
    fs := [(s2l "C:\\Users\\u", true), (s2l "C:\\base", true), (s2l "C:\\tmp", true),
           (s2l "C:\\f.txt", false)] }

/-- Witness for the amended C1: a nonexistent path, an existing
non-directory with a non-empty argument list, and a successful change
followed by `cd -`. -/
theorem C1_cd_contract_witness :
    (osExists os2 (resolveCd os2 [s2l "/c/nope"] (s2l "C:\\base")) = false ∧
      FileCommands.cd os2 [s2l "/c/nope"] (s2l "C:\\base") =
        .ok ((s2l "C:\\base", ColorOutput.error (s2l "cd: " ++ (s2l "/c/nope")
          ++ s2l ": No such file or directory")), os2)) ∧
    (osExists os2 (resolveCd os2 [s2l "/c/f.txt"] (s2l "C:\\base")) = true ∧
      osIsdir os2 (resolveCd os2 [s2l "/c/f.txt"] (s2l "C:\\base")) = false ∧
      FileCommands.cd os2 [s2l "/c/f.txt"] (s2l "C:\\base") =
        .ok ((s2l "C:\\base", ColorOutput.error (s2l "cd: " ++ (s2l "/c/f.txt")
          ++ s2l ": Not a directory")), os2)) ∧
    (osExists os2 (resolveCd os2 [s2l "/c/tmp"] (s2l "C:\\base")) = true ∧
      osIsdir os2 (resolveCd os2 [s2l "/c/tmp"] (s2l "C:\\base")) = true ∧
      FileCommands.cd os2 [s2l "/c/tmp"] (s2l "C:\\base") =
        .ok ((resolveCd os2 [s2l "/c/tmp"] (s2l "C:\\base"), []),
          { os2 with env := setA os2.env (s2l "OLDPWD") (s2l "C:\\base") }) ∧
      resolveCd { os2 with env := setA os2.env (s2l "OLDPWD") (s2l "C:\\base") }
        [s2l "-"] (resolveCd os2 [s2l "/c/tmp"] (s2l "C:\\base")) = s2l "C:\\base") :=
  ⟨⟨by decide,
    ((C1_cd_contract os2 [s2l "/c/nope"] (s2l "C:\\base")).1 (by decide)).1⟩,
   ⟨by decide, by decide,
    (((C1_cd_contract os2 [s2l "/c/f.txt"] (s2l "C:\\base")).2.1 (s2l "/c/f.txt") []
      rfl (by decide) (by decide))).1⟩,
   ⟨by decide, by decide,
    (((C1_cd_contract os2 [s2l "/c/tmp"] (s2l "C:\\base")).2.2 (by decide) (by decide))).1,
    (((C1_cd_contract os2 [s2l "/c/tmp"] (s2l "C:\\base")).2.2 (by decide) (by decide))).2
      (by decide)⟩⟩

/-! ### C2: translator round-trips -/

/-- The uppercase drive letters. -/
def upperLetters : Str := s2l "ABCDEFGHIJKLMNOPQRSTUVWXYZ"

/-- The lowercase drive letters. -/
def lowerLetters : Str := s2l "abcdefghijklmnopqrstuvwxyz"

theorem upper_facts : ∀ c ∈ upperLetters, isLetter c = true ∧
    Char.toUpper (Char.toLower c) = c ∧ isLetter (Char.toLower c) = true ∧
    Char.toLower c ≠ bs ∧ Char.toLower c ≠ '\n' ∧ Char.toLower c ≠ '/' ∧
    c ≠ bs ∧ c ≠ '/' ∧ c ≠ '\n' := by decide

theorem lower_facts : ∀ c ∈ lowerLetters, isLetter c = true ∧
    Char.toLower (Char.toUpper c) = c ∧ isLetter (Char.toUpper c) = true ∧
    Char.toUpper c ≠ bs ∧ Char.toUpper c ≠ '/' ∧ Char.toUpper c ≠ '\n' ∧
    c ≠ bs ∧ c ≠ '/' ∧ c ≠ '\n' ∧ c ≠ '.' ∧ c ≠ '~' ∧ c ≠ ':' := by decide

theorem mapSepB_cons (c : Char) (l : Str) :
    mapSepB (c :: l) = (if c = '/' then bs else c) :: mapSepB l := rfl

theorem mapSepF_cons (c : Char) (l : Str) :
    mapSepF (c :: l) = (if c = bs then '/' else c) :: mapSepF l := rfl

theorem mapSepB_no_slash {l : Str} (h : ∀ x ∈ l, x ≠ '/') : mapSepB l = l := by
  rw [mapSepB]
  have : l.map (fun c => if c = '/' then bs else c) = l.map id :=
    List.map_congr_left (fun a ha => by simp [h a ha])
  rw [this, List.map_id]

theorem mapSepF_no_bs {l : Str} (h : ∀ x ∈ l, x ≠ bs) : mapSepF l = l := by
  rw [mapSepF]
  have : l.map (fun c => if c = bs then '/' else c) = l.map id :=
    List.map_congr_left (fun a ha => by simp [h a ha])
  rw [this, List.map_id]

theorem mapSepB_mapSepF (l : Str) : mapSepB (mapSepF l) = mapSepB l := by
  rw [mapSepF, mapSepB, mapSepB, List.map_map]
  apply List.map_congr_left
  intro a _
  by_cases h1 : a = bs
  · simp [h1, Function.comp, bs]
  · by_cases h2 : a = '/'
    · simp [h1, h2, Function.comp]
    · simp [h1, h2, Function.comp]

theorem mapSepB_idem (l : Str) : mapSepB (mapSepB l) = mapSepB l := by
  rw [mapSepB, mapSepB, List.map_map]
  apply List.map_congr_left
  intro a _
  by_cases h2 : a = '/'
  · simp [h2, Function.comp, bs]
  · simp [h2, Function.comp]

theorem hasChar_map_false {l : Str} {f : Char → Char} {a : Char}
    (h : ∀ x ∈ l, f x ≠ a) : hasChar (l.map f) a = false := by
  apply hasChar_false
  intro x hx
  obtain ⟨y, hy, rfl⟩ := List.mem_map.mp hx
  exact h y hy

theorem matchDrive1_some {d : Char} (hd : isLetter d = true) {t : Str}
    (ht : hasChar t '\n' = false) :
    matchDrive1 ('/' :: d :: '/' :: t) = some (d, '/' :: t) := by
  rw [matchDrive1]
  rw [if_pos hd, if_neg (by simp)]
  rw [dollarTrim, if_pos (by simp [ht])]
  rfl

theorem matchDriveW_some {d : Char} (hd : isLetter d = true) {t : Str}
    (ht : hasChar t '\n' = false) :
    matchDriveW (d :: ':' :: bs :: t) = some (d, t) := by
  show matchDriveW (d :: ':' :: '\\' :: t) = some (d, t)
  rw [matchDriveW]
  rw [if_pos hd, dollarTrim, if_pos (by simp [ht])]
  rfl

theorem matchMnt_ne {c : Char} (hc : c ≠ '/') (l : Str) : matchMnt (c :: l) = none := by
  rw [matchMnt.eq_def]
  split
  · rename_i heq
    rw [List.cons.injEq] at heq
    exact absurd heq.1 hc
  · rfl

theorem splitdrive_colon (D : Char) (Y : Str) :
    splitdrive (D :: ':' :: Y) = ([D, ':'], Y) := by
  rw [splitdrive]
  rw [if_pos (by simp)]
  rw [if_neg (by
    intro hcon
    rw [mapSepB_cons, mapSepB_cons] at hcon
    have : (':' : Char) = bs := by
      have := congrArg (fun l => l[1]?) hcon
      simpa [bs, List.take] using this
    exact absurd this (by decide))]
  rw [if_pos (by simp [mapSepB_cons])]
  rfl

theorem isabs_drive (D : Char) (Y : Str) : isabs (D :: ':' :: bs :: Y) = true := by
  simp only [isabs]
  rw [show (D :: ':' :: bs :: Y).take 3 = [D, ':', bs] from by
    simp [List.take]]
  rw [mapSepB_cons, mapSepB_cons, mapSepB_cons]
  simp [bs]

theorem npGo_skip_empty (root : Bool) (acc : List Str) (cs : List Str) :
    npGo root acc ([] :: cs) = npGo root acc cs := by
  simp [npGo]

theorem npGo_split_dropWhile (root : Bool) (acc : List Str) (sep : Char) (l : Str) :
    npGo root acc (splitOnChar sep (l.dropWhile (fun c => c = sep))) =
      npGo root acc (splitOnChar sep l) := by
  induction l with
  | nil => rfl
  | cons c cs ih =>
    rw [List.dropWhile_cons]
    by_cases hc : c = sep
    · rw [if_pos (by simp [hc]), ih]
      subst hc
      conv_rhs => rw [splitOnChar]
      cases h2 : splitOnChar c cs with
      | nil => exact absurd h2 (splitOnChar_ne_nil c cs)
      | cons r rs =>
        show npGo root acc (r :: rs) =
          npGo root acc (if c = c then [] :: r :: rs else (c :: r) :: rs)
        rw [if_pos rfl, npGo_skip_empty]
    · rw [if_neg (by simp [hc])]

theorem normpath_drive {D : Char} (h1 : D ≠ bs) (h2 : D ≠ '/') (Y : Str) :
    normpath (D :: ':' :: bs :: Y) =
      [D, ':', bs] ++ List.intercalate [bs]
        ((npGo true [] (splitOnChar bs (mapSepB Y))).reverse) := by
  have hmap : mapSepB (D :: ':' :: bs :: Y) = D :: ':' :: bs :: mapSepB Y := by
    rw [mapSepB_cons, mapSepB_cons, mapSepB_cons, if_neg h2]
    simp [bs]
  simp only [normpath]
  rw [hmap, splitdrive_colon]
  simp only [List.head?_cons, List.dropWhile_cons, decide_eq_true_eq]
  norm_num
  rw [if_neg (by simp), npGo_split_dropWhile]

theorem hasChar_false_mem {l : Str} {c : Char} (h : hasChar l c = false) :
    ∀ x ∈ l, x ≠ c := by
  simp only [hasChar, List.any_eq_false, decide_eq_false_iff_not] at h
  intro x hx
  have := h x hx
  simpa using this

theorem splitOnChar_sep_cons (sep : Char) (l : Str) :
    splitOnChar sep (sep :: l) = [] :: splitOnChar sep l := by
  rw [splitOnChar]
  cases h2 : splitOnChar sep l with
  | nil => exact absurd h2 (splitOnChar_ne_nil sep l)
  | cons r rs => simp

theorem mem_of_mem_splitOnChar {sep : Char} {l p : Str}
    (hp : p ∈ splitOnChar sep l) {c : Char} (hc : c ∈ p) : c ∈ l := by
  induction l generalizing p with
  | nil =>
    rw [splitOnChar] at hp
    simp only [List.mem_singleton] at hp
    subst hp
    exact absurd hc (by simp)
  | cons a as ih =>
    rw [splitOnChar] at hp
    cases h2 : splitOnChar sep as with
    | nil => exact absurd h2 (splitOnChar_ne_nil sep as)
    | cons r rs =>
      rw [h2] at hp
      by_cases ha : a = sep
      · simp only [if_pos ha] at hp
        rcases List.mem_cons.mp hp with hp | hp
        · subst hp
          exact absurd hc (by simp)
        · exact List.mem_cons_of_mem a (ih (h2 ▸ hp) hc)
      · simp only [if_neg ha] at hp
        rcases List.mem_cons.mp hp with hp | hp
        · subst hp
          rcases List.mem_cons.mp hc with hc | hc
          · exact hc ▸ List.mem_cons_self a as
          · exact List.mem_cons_of_mem a (ih (h2 ▸ List.mem_cons_self r rs) hc)
        · exact List.mem_cons_of_mem a (ih (h2 ▸ List.mem_cons_of_mem r hp) hc)

theorem splitOnChar_mapSepB {l : Str} (h : ∀ x ∈ l, x ≠ bs) :
    splitOnChar bs (mapSepB l) = splitOnChar '/' l := by
  induction l with
  | nil => rfl
  | cons c cs ih =>
    have ih' := ih (fun x hx => h x (List.mem_cons_of_mem c hx))
    rw [mapSepB_cons, splitOnChar]
    conv_rhs => rw [splitOnChar]
    rw [ih']
    cases h2 : splitOnChar '/' cs with
    | nil => exact absurd h2 (splitOnChar_ne_nil '/' cs)
    | cons r rs =>
      by_cases hc : c = '/'
      · simp [hc]
      · have hcb := h c (List.mem_cons_self c cs)
        simp [hc, hcb]

theorem mem_npGo {p : Str} :
    ∀ (cs : List Str) (r : Bool) (acc : List Str),
      p ∈ npGo r acc cs → p ∈ acc ∨ p ∈ cs ∨ p = s2l ".." := by
  intro cs
  induction cs with
  | nil =>
    intro r acc h
    exact Or.inl (by simpa [npGo] using h)
  | cons c cs ih =>
    intro r acc h
    simp only [npGo] at h
    by_cases h1 : c = [] ∨ c = s2l "."
    · rw [if_pos h1] at h
      rcases ih r acc h with h | h | h
      · exact Or.inl h
      · exact Or.inr (Or.inl (List.mem_cons_of_mem c h))
      · exact Or.inr (Or.inr h)
    · rw [if_neg h1] at h
      by_cases h2 : c = s2l ".."
      · rw [if_pos h2] at h
        cases acc with
        | nil =>
          cases r with
          | true =>
            rw [if_pos rfl] at h
            rcases ih true [] h with h | h | h
            · exact absurd h (by simp)
            · exact Or.inr (Or.inl (List.mem_cons_of_mem c h))
            · exact Or.inr (Or.inr h)
          | false =>
            rw [if_neg (by simp)] at h
            rcases ih false [s2l ".."] h with h | h | h
            · exact Or.inr (Or.inr (by simpa using h))
            · exact Or.inr (Or.inl (List.mem_cons_of_mem c h))
            · exact Or.inr (Or.inr h)
        | cons a as =>
          by_cases h3 : a = s2l ".."
          · simp only [if_pos h3] at h
            rcases ih r (c :: a :: as) h with h | h | h
            · rcases List.mem_cons.mp h with h | h
              · exact Or.inr (Or.inr (h ▸ h2))
              · exact Or.inl h
            · exact Or.inr (Or.inl (List.mem_cons_of_mem c h))
            · exact Or.inr (Or.inr h)
          · simp only [if_neg h3] at h
            rcases ih r as h with h | h | h
            · exact Or.inl (List.mem_cons_of_mem a h)
            · exact Or.inr (Or.inl (List.mem_cons_of_mem c h))
            · exact Or.inr (Or.inr h)
      · rw [if_neg h2] at h
        rcases ih r (c :: acc) h with h | h | h
        · rcases List.mem_cons.mp h with h | h
          · exact Or.inr (Or.inl (h ▸ List.mem_cons_self c cs))
          · exact Or.inl h
        · exact Or.inr (Or.inl (List.mem_cons_of_mem c h))
        · exact Or.inr (Or.inr h)

theorem npGo_mem_dd :
    ∀ (cs : List Str) (r : Bool) (acc : List Str), s2l ".." ∈ acc →
      s2l ".." ∈ npGo r acc cs := by
  intro cs
  induction cs with
  | nil =>
    intro r acc h
    simpa [npGo] using h
  | cons c cs ih =>
    intro r acc h
    simp only [npGo]
    by_cases h1 : c = [] ∨ c = s2l "."
    · rw [if_pos h1]
      exact ih r acc h
    · rw [if_neg h1]
      by_cases h2 : c = s2l ".."
      · rw [if_pos h2]
        cases acc with
        | nil => exact absurd h (by simp)
        | cons a as =>
          by_cases h3 : a = s2l ".."
          · simp only [if_pos h3]
            exact ih r (c :: a :: as) (List.mem_cons_of_mem c h)
          · simp only [if_neg h3]
            rcases List.mem_cons.mp h with h | h
            · exact absurd h.symm h3
            · exact ih r as h
      · rw [if_neg h2]
        exact ih r (c :: acc) (List.mem_cons_of_mem c h)

theorem npGo_frame :
    ∀ (cs : List Str) (acc₁ : List Str), s2l ".." ∉ npGo false acc₁ cs →
      ∀ (root : Bool) (acc₀ : List Str),
        npGo root (acc₁ ++ acc₀) cs = npGo false acc₁ cs ++ acc₀ := by
  intro cs
  induction cs with
  | nil =>
    intro acc₁ h root acc₀
    simp [npGo]
  | cons c cs ih =>
    intro acc₁ h root acc₀
    simp only [npGo] at h ⊢
    by_cases h1 : c = [] ∨ c = s2l "."
    · simp only [if_pos h1] at h ⊢
      exact ih acc₁ h root acc₀
    · simp only [if_neg h1] at h ⊢
      by_cases h2 : c = s2l ".."
      · simp only [if_pos h2] at h ⊢
        cases acc₁ with
        | nil =>
          simp only at h
          exact absurd (npGo_mem_dd cs false [s2l ".."] (by simp)) h
        | cons a as =>
          simp only [List.cons_append]
          by_cases h3 : a = s2l ".."
          · simp only [if_pos h3] at h ⊢
            have := ih (c :: a :: as) h root acc₀
            simpa using this
          · simp only [if_neg h3] at h ⊢
            exact ih as h root acc₀
      · simp only [if_neg h2] at h ⊢
        have := ih (c :: acc₁) h root acc₀
        simpa using this

theorem intercalate_single (s a : Str) : List.intercalate s [a] = a := by
  simp [List.intercalate]

theorem intercalate_cons2 (s a b : Str) (M : List Str) :
    List.intercalate s (a :: b :: M) = a ++ s ++ List.intercalate s (b :: M) := by
  simp [List.intercalate, List.intersperse]

theorem mapSepF_append (x y : Str) : mapSepF (x ++ y) = mapSepF x ++ mapSepF y := by
  simp [mapSepF]

theorem mapSepF_intercalate :
    ∀ (M : List Str), (∀ p ∈ M, ∀ c ∈ p, c ≠ bs) →
      mapSepF (List.intercalate [bs] M) = List.intercalate [('/' : Char)] M := by
  intro M
  induction M with
  | nil => intro _; rfl
  | cons a M ih =>
    intro h
    cases M with
    | nil =>
      rw [intercalate_single, intercalate_single]
      exact mapSepF_no_bs (h a (by simp))
    | cons b M2 =>
      rw [intercalate_cons2, intercalate_cons2, mapSepF_append, mapSepF_append]
      rw [mapSepF_no_bs (h a (by simp))]
      rw [ih (fun p hp => h p (List.mem_cons_of_mem a hp))]
      rw [show mapSepF [bs] = [('/' : Char)] from by decide]

theorem hasChar_intercalate_nl :
    ∀ (M : List Str), (∀ p ∈ M, ∀ c ∈ p, c ≠ '\n') →
      hasChar (List.intercalate [bs] M) '\n' = false := by
  intro M
  induction M with
  | nil => intro _; rfl
  | cons a M ih =>
    intro h
    cases M with
    | nil =>
      rw [intercalate_single]
      exact hasChar_false (h a (by simp))
    | cons b M2 =>
      rw [intercalate_cons2]
      apply hasChar_append_false
      · apply hasChar_append_false
        · exact hasChar_false (h a (by simp))
        · decide
      · exact ih (fun p hp => h p (List.mem_cons_of_mem a hp))

theorem to_linux_drive (cw' : Str) {D : Char} (hlet : isLetter D = true)
    (hlbs : Char.toLower D ≠ bs) {rest : Str} (hnl : hasChar rest '\n' = false) :
    PathConverter.to_linux cw' (D :: ':' :: bs :: rest) =
      '/' :: Char.toLower D :: '/' :: mapSepF rest := by
  simp only [PathConverter.to_linux]
  rw [if_neg (by simp), matchDriveW_some hlet hnl]
  show mapSepF ('/' :: Char.toLower D :: '/' :: rest) = _
  rw [mapSepF_cons, mapSepF_cons, mapSepF_cons]
  rw [if_neg (show ('/' : Char) ≠ bs from by decide), if_neg hlbs]

theorem to_windows_virtual (cw hm : Str) {d : Char} (hletd : isLetter d = true)
    (hUsl : Char.toUpper d ≠ '/') {t : Str} (hnl : hasChar t '\n' = false) :
    PathConverter.to_windows cw hm ('/' :: d :: '/' :: t) =
      normpath (Char.toUpper d :: ':' :: bs :: mapSepB t) := by
  simp only [PathConverter.to_windows]
  rw [if_neg (show ¬ ('/' :: d :: '/' :: t) = [] from by simp)]
  rw [if_neg (show ¬ (('/' : Char) :: d :: '/' :: t).head? = some '~' from by
    rw [List.head?_cons]; decide)]
  rw [matchDrive1_some hletd hnl]
  simp only [List.cons_append, List.nil_append]
  rw [matchMnt_ne hUsl]
  rw [mapSepB_cons, mapSepB_cons, mapSepB_cons, if_neg hUsl,
    if_neg (show (':' : Char) ≠ '/' from by decide), if_pos rfl]
  rw [isabs_drive, if_pos rfl]

theorem round_trip_native (cw hm cw' : Str) {D : Char} (hD : D ∈ upperLetters)
    {rest : Str} (hnl : hasChar rest '\n' = false) :
    PathConverter.to_windows cw hm (PathConverter.to_linux cw' (D :: ':' :: bs :: rest)) =
      normpath (D :: ':' :: bs :: rest) := by
  obtain ⟨hlet, hupx, hletl, hlbs, hlnl, hlsl, hDbs, hDsl, hDnl⟩ := upper_facts D hD
  have hmf : hasChar (mapSepF rest) '\n' = false := by
    rw [mapSepF]
    apply hasChar_map_false
    intro y hy
    by_cases hyb : y = bs
    · subst hyb; decide
    · simp only [if_neg hyb]
      exact hasChar_false_mem hnl y hy
  rw [to_linux_drive cw' hlet hlbs hnl]
  have hUsl : Char.toUpper (Char.toLower D) ≠ '/' := by rw [hupx]; exact hDsl
  rw [to_windows_virtual cw hm hletl hUsl hmf]
  rw [hupx, mapSepB_mapSepF]
  rw [normpath_drive hDbs hDsl, normpath_drive hDbs hDsl, mapSepB_idem]

theorem round_trip_virtual (cw hm cw' : Str) {x : Char} (hx : x ∈ lowerLetters)
    {rest : Str} (hbs : hasChar rest bs = false) (hnl : hasChar rest '\n' = false)
    (hdd : s2l ".." ∉ npGo false [] (splitOnChar '/' rest))
    (hne : npGo false [] (splitOnChar '/' rest) ≠ []) :
    PathConverter.to_linux cw' (PathConverter.to_windows cw hm ('/' :: x :: '/' :: rest)) =
      posixNormpath ('/' :: x :: '/' :: rest) := by
  obtain ⟨hlet, hlow, hletU, hUbs, hUsl, hUnl, hxbs, hxsl, hxnl, hxdot, hxtil, hxcol⟩ :=
    lower_facts x hx
  have helem : ∀ p ∈ (npGo false [] (splitOnChar '/' rest)).reverse, ∀ c ∈ p,
      c ≠ bs ∧ c ≠ '\n' := by
    intro p hp c hc
    have hp' := List.mem_reverse.mp hp
    rcases mem_npGo (splitOnChar '/' rest) false [] hp' with h | h | h
    · exact absurd h (by simp)
    · have hcr := mem_of_mem_splitOnChar h hc
      exact ⟨hasChar_false_mem hbs c hcr, hasChar_false_mem hnl c hcr⟩
    · subst h
      rw [show s2l ".." = ['.', '.'] from by decide] at hc
      have hcd : c = '.' := by
        rcases List.mem_cons.mp hc with h | h
        · exact h
        · simpa using h
      subst hcd
      exact ⟨by decide, by decide⟩
  rw [to_windows_virtual cw hm hlet hUsl hnl]
  rw [normpath_drive hUbs hUsl, mapSepB_idem]
  rw [splitOnChar_mapSepB (hasChar_false_mem hbs)]
  have hframe0 : npGo true [] (splitOnChar '/' rest) =
      npGo false [] (splitOnChar '/' rest) := by
    have := npGo_frame (splitOnChar '/' rest) [] hdd true []
    simpa using this
  rw [hframe0]
  have hTnl : hasChar
      (List.intercalate [bs] (npGo false [] (splitOnChar '/' rest)).reverse) '\n' = false :=
    hasChar_intercalate_nl _ (fun p hp c hc => (helem p hp c hc).2)
  have hlbs' : Char.toLower (Char.toUpper x) ≠ bs := by rw [hlow]; exact hxbs
  simp only [List.cons_append, List.nil_append]
  rw [to_linux_drive cw' hletU hlbs' hTnl, hlow]
  rw [mapSepF_intercalate _ (fun p hp c hc => (helem p hp c hc).1)]
  have e2 : splitOnChar '/' (x :: '/' :: rest) = [x] :: splitOnChar '/' rest := by
    rw [splitOnChar, splitOnChar_sep_cons]
    simp only [if_neg hxsl]
  have e3 : splitOnChar '/' ('/' :: x :: '/' :: rest) =
      [] :: [x] :: splitOnChar '/' rest := by
    rw [splitOnChar, e2]
    simp
  have e4 : npGo true [] ([x] :: splitOnChar '/' rest) =
      npGo true [[x]] (splitOnChar '/' rest) := by
    simp only [npGo]
    rw [if_neg (show ¬ ([x] = [] ∨ [x] = s2l ".") from by
      rw [show s2l "." = ['.'] from by decide]
      simp [hxdot])]
    rw [if_neg (show ¬ [x] = s2l ".." from by
      rw [show s2l ".." = ['.', '.'] from by decide]
      simp)]
  have e5 : npGo true [[x]] (splitOnChar '/' rest) =
      npGo false [] (splitOnChar '/' rest) ++ [[x]] := by
    have := npGo_frame (splitOnChar '/' rest) [] hdd true [[x]]
    simpa using this
  simp only [posixNormpath]
  rw [if_neg (show ¬ ('/' :: x :: '/' :: rest) = [] from by simp)]
  rw [if_pos (show (('/' : Char) :: x :: '/' :: rest).head? = some '/' from rfl)]
  rw [if_neg (show ¬ ((s2l "//").isPrefixOf ('/' :: x :: '/' :: rest) = true ∧
      ¬ (s2l "///").isPrefixOf ('/' :: x :: '/' :: rest) = true) from by
    intro hcon
    have h1 := hcon.1
    rw [show s2l "//" = ['/', '/'] from by decide] at h1
    simp only [List.isPrefixOf, Bool.and_eq_true, beq_iff_eq] at h1
    exact hxsl h1.2.1.symm)]
  rw [e3, show (decide ((1:Nat) ≠ 0)) = true from by decide,
    show List.replicate 1 '/' = ['/'] from rfl]
  rw [npGo_skip_empty, e4, e5, List.reverse_append]
  simp only [List.reverse_cons, List.reverse_nil, List.nil_append, List.singleton_append]
  cases hLrev : (npGo false [] (splitOnChar '/' rest)).reverse with
  | nil => exact absurd (by simpa using hLrev) hne
  | cons b M =>
    rw [intercalate_cons2]
    rw [if_neg (by simp)]
    simp

/-- C2: the two path translators are mutually inverse up to normalization on
the single-drive-letter sublanguage, in the amended form.  Part 1: for a
native path with an uppercase drive letter and no newline in the tail,
`to_windows` after `to_linux` equals `ntpath.normpath` of the path.  Part 2:
for a virtual path `/x/rest` with a lowercase drive letter whose tail has no
backslash and no newline, whose collapsed component list keeps no `..` and
is non-empty, `to_linux` after `to_windows` equals `posixpath.normpath` of
the path (the spec-side `normalize`). -/
theorem C2_round_trip :
    (∀ cw hm cw' : Str, ∀ D ∈ upperLetters, ∀ rest : Str,
      hasChar rest '\n' = false →
      PathConverter.to_windows cw hm (PathConverter.to_linux cw' (D :: ':' :: bs :: rest)) =
        normpath (D :: ':' :: bs :: rest)) ∧
    (∀ cw hm cw' : Str, ∀ x ∈ lowerLetters, ∀ rest : Str,
      hasChar rest bs = false → hasChar rest '\n' = false →
      s2l ".." ∉ npGo false [] (splitOnChar '/' rest) →
      npGo false [] (splitOnChar '/' rest) ≠ [] →
      PathConverter.to_linux cw' (PathConverter.to_windows cw hm ('/' :: x :: '/' :: rest)) =
        posixNormpath ('/' :: x :: '/' :: rest)) :=
  ⟨fun cw hm cw' _ hD rest hnl => round_trip_native cw hm cw' hD hnl,
   fun cw hm cw' _ hx rest hbs hnl hdd hne =>
     round_trip_virtual cw hm cw' hx hbs hnl hdd hne⟩

/-- C2 counterexample to the unrestricted claim: on the virtual path
`/c/a/..` the round trip returns `/c/` (the drive root keeps its trailing
slash) while `posixpath.normpath` returns `/c`. -/
theorem C2_counterexample :
    PathConverter.to_linux [] (PathConverter.to_windows [] [] (s2l "/c/a/..")) = s2l "/c/" ∧
    posixNormpath (s2l "/c/a/..") = s2l "/c" ∧
    PathConverter.to_linux [] (PathConverter.to_windows [] [] (s2l "/c/a/..")) ≠
      posixNormpath (s2l "/c/a/..") :=
  ⟨by decide, by decide, by decide⟩

/-- C2 witness: both round-trip identities at concrete paths, `C:\a\..\b`
for the native direction and `/c/a/../b` for the virtual direction. -/
theorem C2_round_trip_witness :
    PathConverter.to_windows [] [] (PathConverter.to_linux []
        ('C' :: ':' :: bs :: s2l "a\\..\\b")) =
      normpath ('C' :: ':' :: bs :: s2l "a\\..\\b") ∧
    PathConverter.to_linux [] (PathConverter.to_windows [] []
        ('/' :: 'c' :: '/' :: s2l "a/../b")) =
      posixNormpath ('/' :: 'c' :: '/' :: s2l "a/../b") :=
  ⟨C2_round_trip.1 [] [] [] 'C' (by decide) (s2l "a\\..\\b") (by decide),
   C2_round_trip.2 [] [] [] 'c' (by decide) (s2l "a/../b") (by decide) (by decide)
     (by decide) (by decide)⟩
